import Mathlib

/-!
# Verification of the KanBan ordering engine

Shallow embedding of the task-ordering engine of the KanBan repository
(`models/Task.js` statics `getNextOrder`, `reorderTasks`, `moveTaskToColumn`
and the `routes/tasks.js` handlers for POST, DELETE and POST /reorder).

The MongoDB task collection is modelled as a `List Task`.  Mongo's
single-document operations (`updateOne`, `findOneAndDelete`/`findByIdAndDelete`,
`document.save`) act on the first matching document, which is unique in Mongo
because `_id` is a primary key; they are modelled as first-match list
operations.  `updateMany` acts on every matching document and is modelled as a
`map`.  `createdAt`/`updatedAt` timestamps are real-time data outside the
ordering logic and are omitted from the model; no claim mentions them.
-/

namespace KanBan

/-- The closed column enumeration of the task schema
(`enum: ['todo', 'in-progress', 'completed']`). -/
inductive Col where
  | todo
  | inProgress
  | completed
deriving DecidableEq, Repr, Fintype

/-- A task document: `_id`, `title`, `description`, `columnId`, `order`
(timestamps omitted, see module docstring).  `order` is an `Int`; the schema
demands a positive value, which claims state as a hypothesis where relevant. -/
structure Task where
  id : Nat
  title : String
  description : String
  columnId : Col
  order : Int
deriving DecidableEq, Repr

/-- The task collection. -/
abbrev Store := List Task

/-- The tasks of one column (`find({ columnId })`). -/
def colTasks (s : Store) (c : Col) : Store :=
  s.filter (fun t => decide (t.columnId = c))

/-- The list of order values present in a column. -/
def ordersIn (s : Store) (c : Col) : List Int :=
  (colTasks s c).map Task.order

/-- Number of tasks of column `c` carrying order value `o`. -/
def countOrd : Store → Col → Int → Nat
  | [], _, _ => 0
  | t :: ts, c, o => (if t.columnId = c ∧ t.order = o then 1 else 0) + countOrd ts c o

/-- Number of tasks of column `c` whose order satisfies `p`. -/
def countOrdP (s : Store) (c : Col) (p : Int → Prop) [DecidablePred p] : Nat :=
  match s with
  | [] => 0
  | t :: ts => (if t.columnId = c ∧ p t.order then 1 else 0) + countOrdP ts c p

/-- Spec invariant I1 for column `c`: no two tasks of `c` share an order. -/
def uniqueOrders (s : Store) (c : Col) : Prop :=
  (ordersIn s c).Nodup

instance (s : Store) (c : Col) : Decidable (uniqueOrders s c) :=
  List.nodupDecidable _

/-- Effect of `updateMany({ columnId: c, order: <p> }, { $inc: { order: d } })`
on one document. -/
def shiftFun (c : Col) (p : Int → Prop) [DecidablePred p] (d : Int) (t : Task) : Task :=
  if t.columnId = c ∧ p t.order then { t with order := t.order + d } else t

/-- `updateMany({ columnId: c, order: <p> }, { $inc: { order: d } })`:
shift by `d` the order of every task of column `c` whose order satisfies `p`. -/
def shiftBy (c : Col) (p : Int → Prop) [DecidablePred p] (d : Int) (s : Store) : Store :=
  s.map (shiftFun c p d)

/-- Mongo single-document update (`updateOne` / `document.save`): apply `f` to
the first task matching `q`, leave everything else unchanged. -/
def updateFirst (q : Task → Bool) (f : Task → Task) : Store → Store
  | [] => []
  | t :: ts => if q t then f t :: ts else t :: updateFirst q f ts

/-- Mongo single-document delete (`findByIdAndDelete`): remove the first task
matching `q`. -/
def removeFirst (q : Task → Bool) : Store → Store
  | [] => []
  | t :: ts => if q t then ts else t :: removeFirst q ts

/-- Largest order value present in a column, if the column is inhabited
(`findOne({ columnId }).sort({ order: -1 })` returns the task with maximal
order, or nothing when the column is empty). -/
def maxOrderIn : Store → Col → Option Int
  | [], _ => none
  | t :: ts, c =>
      let r := maxOrderIn ts c
      if t.columnId = c then
        some (match r with
              | none => t.order
              | some m => max t.order m)
      else r

/-- `Task.getNextOrder` (models/Task.js lines 61-68): the last task of the
column sorted by descending order gives `order + 1`, an empty column gives 1. -/
def getNextOrder (s : Store) (c : Col) : Int :=
  match maxOrderIn s c with
  | none => 1
  | some m => m + 1

/-- One iteration of the `reorderTasks` loop (models/Task.js lines 73-78):
`updateOne({ _id: update._id, columnId }, { order: update.order })`.  A filter
matching no document writes nothing and raises nothing.  A matched write is
checked against the unique `(columnId, order)` index declared at
models/Task.js line 44: if another document currently holds the target key the
write is rejected with Mongo's E11000 duplicate-key error (whose
environment-specific message the model abbreviates), which the `catch` at
lines 79-81 rethrows as `'Failed to reorder tasks: ' + message`. -/
def applyReorder (columnId : Col) (s : Store) (u : Nat × Int) : Except String Store :=
  match s.find? (fun t => decide (t.id = u.1 ∧ t.columnId = columnId)) with
  | none => .ok s
  | some t =>
      match s.find? (fun x => decide (¬ x = t ∧ x.columnId = columnId ∧ x.order = u.2)) with
      | some _ => .error ("Failed to reorder tasks: " ++ "E11000 duplicate key error")
      | none =>
          .ok (updateFirst (fun x => decide (x.id = u.1 ∧ x.columnId = columnId))
            (fun x => { x with order := u.2 }) s)

/-- `Task.reorderTasks` (models/Task.js lines 71-82): apply each
`(taskId, order)` update in sequence, each one an independent `updateOne`.
The loop is not transactional: the first rejected write aborts it, the
already-committed earlier writes remain, and the wrapped error propagates to
the route (which answers 500).  The result is the store actually reached
together with the error, if any. -/
def reorderTasks : Store → Col → List (Nat × Int) → Store × Option String
  | s, _, [] => (s, none)
  | s, columnId, u :: us =>
      match applyReorder columnId s u with
      | .ok s' => reorderTasks s' columnId us
      | .error e => (s, some e)

/-- `Task.moveTaskToColumn` (models/Task.js lines 85-140).  `findById` then:
for a different target column, close the gap in the old column
(`$gt oldOrder`, `$inc -1`) and open a slot in the new one
(`$gte newOrder`, `$inc +1`); for the same column shift the range between the
two positions; finally save the task itself with the new column and order.
A missing task throws, and the surrounding `catch` rethrows every error as
`'Failed to move task: ' + message`. -/
def moveTaskToColumn (s : Store) (taskId : Nat) (newColumnId : Col) (newOrder : Int) :
    Except String Store :=
  match s.find? (fun t => decide (t.id = taskId)) with
  | none => .error ("Failed to move task: " ++ "Task not found")
  | some task =>
      let oldColumnId := task.columnId
      let oldOrder := task.order
      let shifted :=
        if oldColumnId ≠ newColumnId then
          shiftBy newColumnId (fun o => newOrder ≤ o) 1
            (shiftBy oldColumnId (fun o => oldOrder < o) (-1) s)
        else if newOrder < oldOrder then
          shiftBy oldColumnId (fun o => newOrder ≤ o ∧ o < oldOrder) 1 s
        else if oldOrder < newOrder then
          shiftBy oldColumnId (fun o => oldOrder < o ∧ o ≤ newOrder) (-1) s
        else s
      .ok (updateFirst (fun t => decide (t.id = taskId))
            (fun t => { t with columnId := newColumnId, order := newOrder }) shifted)

/-- `DELETE /api/tasks/:id` (routes/tasks.js lines 218-258): `findById`; a
missing id answers 404 `'Task not found'` without touching the store; otherwise
`findByIdAndDelete` followed by `updateMany({ columnId, order: { $gt } },
{ $inc: { order: -1 } })` on the deleted task's column. -/
def deleteTask (s : Store) (taskId : Nat) : Except String Store :=
  match s.find? (fun t => decide (t.id = taskId)) with
  | none => .error "Task not found"
  | some task =>
      let removed := removeFirst (fun t => decide (t.id = taskId)) s
      .ok (shiftBy task.columnId (fun o => task.order < o) (-1) removed)

/-- The record written by `new Task({ title, description, columnId, order })`
with the fresh `_id` chosen by Mongo. -/
def newTask (newId : Nat) (title description : String) (columnId : Col) (o : Int) : Task :=
  { id := newId, title := title, description := description, columnId := columnId, order := o }

/-- `POST /api/tasks` (routes/tasks.js lines 49-127), order logic.  A falsy
supplied order (absent, or the number 0: `if (!taskOrder)`) is replaced by
`getNextOrder`; that auto-computed value is the column maximum plus one, which
is at least 1 on every store obeying the schema, so the validator cannot
reject it and the task is appended.  An explicit non-falsy order first looks
for a task at exactly `{ columnId, order }` and only when one exists shifts
every task with `order: { $gte: taskOrder }` up by one; then `save()` runs the
schema validators (models/Task.js line 27, `min: [1]`): an order below 1 is a
ValidationError — the route answers 400 and the new task is not written,
though the shift (which ran first) remains.  The fresh `_id` chosen by Mongo
is passed in as `newId`. -/
def insertTask (s : Store) (newId : Nat) (title description : String)
    (columnId : Col) (order : Option Int) : Store :=
  match order with
  | none => s ++ [newTask newId title description columnId (getNextOrder s columnId)]
  | some k =>
      if k = 0 then s ++ [newTask newId title description columnId (getNextOrder s columnId)]
      else
        match s.find? (fun t => decide (t.columnId = columnId ∧ t.order = k)) with
        | some _ =>
            if 1 ≤ k then
              shiftBy columnId (fun o => k ≤ o) 1 s ++
                [newTask newId title description columnId k]
            else shiftBy columnId (fun o => k ≤ o) 1 s
        | none =>
            if 1 ≤ k then s ++ [newTask newId title description columnId k]
            else s

/-- `PUT /api/tasks/:id` catch clause (routes/tasks.js lines 192-214): an error
whose message is exactly `'Task not found'` answers 404, every other engine
error answers 500. -/
def putErrorStatus (msg : String) : Nat :=
  if msg = "Task not found" then 404 else 500

/-- The engine operations a caller can run sequentially (spec §6). -/
inductive Op where
  | insert (newId : Nat) (title description : String) (columnId : Col) (order : Option Int)
  | delete (taskId : Nat)
  | move (taskId : Nat) (newColumnId : Col) (newOrder : Int)
  | bulk (columnId : Col) (taskUpdates : List (Nat × Int))
  | nextOrder (columnId : Col)

/-- Run one operation; a failed move or delete performs no writes (the route
answers with an error and the store is untouched), `computeNextOrder` is a pure
read. -/
def applyOp (s : Store) : Op → Store
  | .insert newId ti d c o => insertTask s newId ti d c o
  | .delete taskId =>
      match deleteTask s taskId with
      | .ok s' => s'
      | .error _ => s
  | .move taskId c o =>
      match moveTaskToColumn s taskId c o with
      | .ok s' => s'
      | .error _ => s
  | .bulk c us => (reorderTasks s c us).1
  | .nextOrder _ => s

/-- Run a sequence of operations in order. -/
def execOps (s : Store) (ops : List Op) : Store :=
  ops.foldl applyOp s

/-- The order values `1, 2, …, n`: the dense range demanded by invariant I2. -/
def posRange (n : Nat) : List Int :=
  (List.range n).map (fun (i : Nat) => (i : Int) + 1)

/-- Modelled from the claim wording for C8 (spec §4.6, P5): the effect bulk
reorder is claimed to have on one document — a listed task of column `c` takes
exactly its supplied order, every other task is untouched. -/
def bulkFun (c : Col) (updates : List (Nat × Int)) (t : Task) : Task :=
  match updates.find? (fun u => decide (u.1 = t.id)) with
  | some u => if t.columnId = c then { t with order := u.2 } else t
  | none => t

/-- Modelled from the claim wording for C8: pointwise application of
`bulkFun` to the whole store. -/
def bulkSpec (c : Col) (updates : List (Nat × Int)) (s : Store) : Store :=
  s.map (bulkFun c updates)

/-- Modelled from the claim wording for C2 (spec §4.5): a cross-column move of
a task of column `cs` at order `os` to column `ct` at order `ot` decrements
every `cs` task above `os`, increments every `ct` task at or above `ot`, and
leaves every other task unchanged. -/
def moveAcrossSpec (cs ct : Col) (os ot : Int) (x : Task) : Task :=
  if x.columnId = cs ∧ os < x.order then { x with order := x.order - 1 }
  else if x.columnId = ct ∧ ot ≤ x.order then { x with order := x.order + 1 }
  else x

/-- Modelled from the claim wording for C3 (spec §4.4): a within-column move
from order `o` to order `n` shifts the tasks of the interval between them by
one and leaves everything else unchanged; `n = o` changes nothing. -/
def moveWithinSpec (c : Col) (o n : Int) (x : Task) : Task :=
  if n < o then
    if x.columnId = c ∧ n ≤ x.order ∧ x.order < o then { x with order := x.order + 1 } else x
  else if o < n then
    if x.columnId = c ∧ o < x.order ∧ x.order ≤ n then { x with order := x.order - 1 } else x
  else x

/-- Modelled from the claim wording for C4 (spec §4.2): inserting at explicit
order `k` increments every existing task of the column with order ≥ `k`. -/
def insertShiftSpec (c : Col) (k : Int) (x : Task) : Task :=
  if x.columnId = c ∧ k ≤ x.order then { x with order := x.order + 1 } else x

/-- Modelled from the claim wording for C5 (spec §4.3): deleting a task of
order `j` decrements every remaining same-column task with order > `j`. -/
def deleteSpec (c : Col) (j : Int) (x : Task) : Task :=
  if x.columnId = c ∧ j < x.order then { x with order := x.order - 1 } else x

/-! ## Counting toolkit -/

theorem countOrd_append (s₁ s₂ : Store) (c : Col) (o : Int) :
    countOrd (s₁ ++ s₂) c o = countOrd s₁ c o + countOrd s₂ c o := by
  induction s₁ with
  | nil => simp [countOrd]
  | cons t ts ih => simp [countOrd, ih]; omega

theorem countOrdP_congr {p q : Int → Prop} [DecidablePred p] [DecidablePred q]
    (s : Store) (c : Col) (h : ∀ x, p x ↔ q x) : countOrdP s c p = countOrdP s c q := by
  induction s with
  | nil => simp [countOrdP]
  | cons t ts ih =>
    simp only [countOrdP, ih]
    congr 1
    by_cases hc : t.columnId = c ∧ p t.order
    · rw [if_pos hc, if_pos ⟨hc.1, (h t.order).mp hc.2⟩]
    · rw [if_neg hc, if_neg (fun hq => hc ⟨hq.1, (h t.order).mpr hq.2⟩)]

theorem countOrdP_or {p q : Int → Prop} [DecidablePred p] [DecidablePred q]
    (s : Store) (c : Col) (h : ∀ x, ¬(p x ∧ q x)) :
    countOrdP s c (fun x => p x ∨ q x) = countOrdP s c p + countOrdP s c q := by
  induction s with
  | nil => simp [countOrdP]
  | cons t ts ih =>
    simp only [countOrdP, ih]
    by_cases hc : t.columnId = c
    · by_cases hp : p t.order
      · have hq : ¬ q t.order := fun hq => h t.order ⟨hp, hq⟩
        simp [hc, hp, hq]
        omega
      · by_cases hq : q t.order
        · simp [hc, hp, hq]
          omega
        · simp [hc, hp, hq]
    · simp [hc]

theorem countOrdP_eq_val (s : Store) (c : Col) (v : Int) :
    countOrdP s c (fun x => x = v) = countOrd s c v := by
  induction s with
  | nil => simp [countOrdP, countOrd]
  | cons t ts ih => simp [countOrdP, countOrd, ih]

theorem countOrdP_eq_val_and (s : Store) (c : Col) (v : Int) (P : Prop) [Decidable P] :
    countOrdP s c (fun x => x = v ∧ P) = if P then countOrd s c v else 0 := by
  induction s with
  | nil => simp [countOrdP, countOrd]
  | cons t ts ih =>
    by_cases hP : P
    · simp only [countOrdP, ih, if_pos hP, countOrd]
      congr 1
      by_cases hc : t.columnId = c ∧ t.order = v
      · rw [if_pos ⟨hc.1, hc.2, hP⟩, if_pos hc]
      · rw [if_neg (fun hx => hc ⟨hx.1, hx.2.1⟩), if_neg hc]
    · simp only [countOrdP, ih, if_neg hP]
      rw [if_neg (fun hx => hP hx.2.2)]

theorem countOrdP_false (s : Store) (c : Col) :
    countOrdP s c (fun _ => False) = 0 := by
  induction s with
  | nil => simp [countOrdP]
  | cons t ts ih => simp [countOrdP, ih]

theorem ite_one_zero_congr {P Q : Prop} [Decidable P] [Decidable Q] (h : P ↔ Q) :
    (if P then 1 else 0 : Nat) = (if Q then 1 else 0) := by
  by_cases hp : P
  · rw [if_pos hp, if_pos (h.mp hp)]
  · rw [if_neg hp, if_neg (fun hq => hp (h.mpr hq))]

theorem countOrd_shiftBy (c₀ : Col) (p : Int → Prop) [DecidablePred p] (d : Int)
    (s : Store) (c : Col) (o : Int) :
    countOrd (shiftBy c₀ p d s) c o =
      if c = c₀ then countOrdP s c (fun x => (p x ∧ x + d = o) ∨ (¬ p x ∧ x = o))
      else countOrd s c o := by
  induction s with
  | nil =>
    simp only [shiftBy, shiftFun, List.map_nil, countOrd, countOrdP]
    by_cases hcc : c = c₀
    · rw [if_pos hcc]
    · rw [if_neg hcc]
  | cons t ts ih =>
    simp only [shiftBy, shiftFun, List.map_cons, countOrd, countOrdP] at ih ⊢
    by_cases hcc : c = c₀
    · rw [if_pos hcc] at ih ⊢
      rw [ih]
      congr 1
      by_cases hcond : t.columnId = c₀ ∧ p t.order
      · simp only [if_pos hcond]
        apply ite_one_zero_congr
        subst hcc
        constructor
        · rintro ⟨h1, h2⟩
          exact ⟨h1, Or.inl ⟨hcond.2, h2⟩⟩
        · rintro ⟨h1, h2 | h2⟩
          · exact ⟨h1, h2.2⟩
          · exact absurd hcond.2 h2.1
      · simp only [if_neg hcond]
        apply ite_one_zero_congr
        subst hcc
        constructor
        · rintro ⟨h1, h2⟩
          exact ⟨h1, Or.inr ⟨fun hp => hcond ⟨h1, hp⟩, h2⟩⟩
        · rintro ⟨h1, h2 | h2⟩
          · exact absurd ⟨h1, h2.1⟩ hcond
          · exact ⟨h1, h2.2⟩
    · rw [if_neg hcc] at ih ⊢
      rw [ih]
      congr 1
      by_cases hcond : t.columnId = c₀ ∧ p t.order
      · simp only [if_pos hcond]
        apply ite_one_zero_congr
        constructor
        · rintro ⟨h1, _⟩
          exact absurd (h1.symm.trans hcond.1) hcc
        · rintro ⟨h1, _⟩
          exact absurd (h1.symm.trans hcond.1) hcc
      · simp only [if_neg hcond]

theorem countOrd_updateFirst (q : Task → Bool) (f : Task → Task) (s : Store)
    (t₀ : Task) (c : Col) (o : Int) (hf : s.find? q = some t₀) :
    countOrd (updateFirst q f s) c o + (if t₀.columnId = c ∧ t₀.order = o then 1 else 0)
      = countOrd s c o + (if (f t₀).columnId = c ∧ (f t₀).order = o then 1 else 0) := by
  induction s with
  | nil => simp at hf
  | cons t ts ih =>
    by_cases hq : q t
    · rw [List.find?_cons_of_pos _ hq] at hf
      injection hf with hf
      subst hf
      simp [updateFirst, hq, countOrd]
      omega
    · rw [List.find?_cons_of_neg _ hq] at hf
      have := ih hf
      simp only [updateFirst, if_neg hq, countOrd]
      omega

theorem countOrd_removeFirst (q : Task → Bool) (s : Store)
    (t₀ : Task) (c : Col) (o : Int) (hf : s.find? q = some t₀) :
    countOrd (removeFirst q s) c o + (if t₀.columnId = c ∧ t₀.order = o then 1 else 0)
      = countOrd s c o := by
  induction s with
  | nil => simp at hf
  | cons t ts ih =>
    by_cases hq : q t
    · rw [List.find?_cons_of_pos _ hq] at hf
      injection hf with hf
      subst hf
      simp only [removeFirst, if_pos hq, countOrd]
      exact Nat.add_comm _ _
    · rw [List.find?_cons_of_neg _ hq] at hf
      have := ih hf
      simp only [removeFirst, if_neg hq, countOrd]
      omega

theorem countOrd_pos_of_mem {t : Task} {s : Store} (h : t ∈ s) :
    1 ≤ countOrd s t.columnId t.order := by
  induction s with
  | nil => simp at h
  | cons x ts ih =>
    rcases List.mem_cons.mp h with h | h
    · subst h; simp [countOrd]
    · have := ih h
      simp only [countOrd]
      omega

theorem countOrd_eq_zero_of_forall {s : Store} {c : Col} {o : Int}
    (h : ∀ t ∈ s, t.columnId = c → t.order ≠ o) : countOrd s c o = 0 := by
  induction s with
  | nil => simp [countOrd]
  | cons t ts ih =>
    have ht := h t (List.mem_cons_self t ts)
    have : ¬ (t.columnId = c ∧ t.order = o) := fun hx => ht hx.1 hx.2
    simp only [countOrd, if_neg this, Nat.zero_add]
    exact ih (fun x hx => h x (List.mem_cons_of_mem t hx))

theorem countOrd_eq_count (s : Store) (c : Col) (o : Int) :
    countOrd s c o = (ordersIn s c).count o := by
  induction s with
  | nil => simp [countOrd, ordersIn, colTasks]
  | cons t ts ih =>
    by_cases hc : t.columnId = c
    · by_cases ho : t.order = o
      · simp [countOrd, ordersIn, colTasks, hc, ho, List.count_cons] at *
        omega
      · simp [countOrd, ordersIn, colTasks, hc, ho, List.count_cons] at *
        exact ih
    · have : ¬ (t.columnId = c ∧ t.order = o) := fun hx => hc hx.1
      simp [countOrd, ordersIn, colTasks, hc, this] at *
      exact ih

theorem uniqueOrders_iff_count (s : Store) (c : Col) :
    uniqueOrders s c ↔ ∀ o, countOrd s c o ≤ 1 := by
  rw [uniqueOrders, List.nodup_iff_count_le_one]
  constructor
  · intro h o; rw [countOrd_eq_count]; exact h o
  · intro h o; rw [← countOrd_eq_count]; exact h o

theorem le_maxOrderIn {t : Task} {s : Store} {c : Col} (h : t ∈ s) (hc : t.columnId = c) :
    ∃ m, maxOrderIn s c = some m ∧ t.order ≤ m := by
  induction s with
  | nil => simp at h
  | cons x ts ih =>
    rcases List.mem_cons.mp h with h | h
    · subst h
      simp only [maxOrderIn, if_pos hc]
      cases hr : maxOrderIn ts c with
      | none => exact ⟨t.order, rfl, le_refl _⟩
      | some m => exact ⟨max t.order m, rfl, le_max_left _ _⟩
    · obtain ⟨m, hm, hle⟩ := ih h
      by_cases hx : x.columnId = c
      · simp only [maxOrderIn, if_pos hx, hm]
        exact ⟨max x.order m, rfl, le_trans hle (le_max_right _ _)⟩
      · simp only [maxOrderIn, if_neg hx, hm]
        exact ⟨m, rfl, hle⟩

theorem lt_getNextOrder {t : Task} {s : Store} {c : Col} (h : t ∈ s) (hc : t.columnId = c) :
    t.order < getNextOrder s c := by
  obtain ⟨m, hm, hle⟩ := le_maxOrderIn h hc
  unfold getNextOrder
  rw [hm]
  exact Int.lt_add_one_iff.mpr hle

theorem countOrd_getNextOrder (s : Store) (c : Col) :
    countOrd s c (getNextOrder s c) = 0 :=
  countOrd_eq_zero_of_forall (fun t ht hc => by
    have := lt_getNextOrder ht hc
    omega)

/-! ## Count of each shift shape used by the engine -/

theorem countOrd_shift_ge (c' : Col) (k : Int) (s : Store) (c : Col) (o : Int) :
    countOrd (shiftBy c' (fun x => k ≤ x) 1 s) c o =
      if c = c' then
        (if k ≤ o - 1 then countOrd s c (o - 1) else 0)
          + (if o < k then countOrd s c o else 0)
      else countOrd s c o := by
  rw [countOrd_shiftBy]
  by_cases hcc : c = c'
  · rw [if_pos hcc, if_pos hcc]
    have hiff : ∀ x : Int,
        ((k ≤ x ∧ x + 1 = o) ∨ (¬ k ≤ x ∧ x = o)) ↔
        ((x = o - 1 ∧ k ≤ o - 1) ∨ (x = o ∧ o < k)) := by
      intro x; omega
    rw [countOrdP_congr s c hiff, countOrdP_or s c (by intro x; omega),
      countOrdP_eq_val_and, countOrdP_eq_val_and]
  · rw [if_neg hcc, if_neg hcc]

theorem countOrd_shift_gt (c' : Col) (k : Int) (s : Store) (c : Col) (o : Int) :
    countOrd (shiftBy c' (fun x => k < x) (-1) s) c o =
      if c = c' then
        (if k ≤ o then countOrd s c (o + 1) else 0)
          + (if o ≤ k then countOrd s c o else 0)
      else countOrd s c o := by
  rw [countOrd_shiftBy]
  by_cases hcc : c = c'
  · rw [if_pos hcc, if_pos hcc]
    have hiff : ∀ x : Int,
        ((k < x ∧ x + (-1) = o) ∨ (¬ k < x ∧ x = o)) ↔
        ((x = o + 1 ∧ k ≤ o) ∨ (x = o ∧ o ≤ k)) := by
      intro x; omega
    rw [countOrdP_congr s c hiff, countOrdP_or s c (by intro x; omega),
      countOrdP_eq_val_and, countOrdP_eq_val_and]
  · rw [if_neg hcc, if_neg hcc]

theorem countOrd_shift_range_up (c' : Col) (a b : Int) (s : Store) (c : Col) (o : Int) :
    countOrd (shiftBy c' (fun x => a ≤ x ∧ x < b) 1 s) c o =
      if c = c' then
        (if a ≤ o - 1 ∧ o - 1 < b then countOrd s c (o - 1) else 0)
          + (if ¬(a ≤ o ∧ o < b) then countOrd s c o else 0)
      else countOrd s c o := by
  rw [countOrd_shiftBy]
  by_cases hcc : c = c'
  · rw [if_pos hcc, if_pos hcc]
    have hiff : ∀ x : Int,
        (((a ≤ x ∧ x < b) ∧ x + 1 = o) ∨ (¬(a ≤ x ∧ x < b) ∧ x = o)) ↔
        ((x = o - 1 ∧ (a ≤ o - 1 ∧ o - 1 < b)) ∨ (x = o ∧ ¬(a ≤ o ∧ o < b))) := by
      intro x; omega
    rw [countOrdP_congr s c hiff, countOrdP_or s c (by intro x; omega),
      countOrdP_eq_val_and, countOrdP_eq_val_and]
  · rw [if_neg hcc, if_neg hcc]

theorem countOrd_shift_range_down (c' : Col) (a b : Int) (s : Store) (c : Col) (o : Int) :
    countOrd (shiftBy c' (fun x => a < x ∧ x ≤ b) (-1) s) c o =
      if c = c' then
        (if a < o + 1 ∧ o + 1 ≤ b then countOrd s c (o + 1) else 0)
          + (if ¬(a < o ∧ o ≤ b) then countOrd s c o else 0)
      else countOrd s c o := by
  rw [countOrd_shiftBy]
  by_cases hcc : c = c'
  · rw [if_pos hcc, if_pos hcc]
    have hiff : ∀ x : Int,
        (((a < x ∧ x ≤ b) ∧ x + (-1) = o) ∨ (¬(a < x ∧ x ≤ b) ∧ x = o)) ↔
        ((x = o + 1 ∧ (a < o + 1 ∧ o + 1 ≤ b)) ∨ (x = o ∧ ¬(a < o ∧ o ≤ b))) := by
      intro x; omega
    rw [countOrdP_congr s c hiff, countOrdP_or s c (by intro x; omega),
      countOrdP_eq_val_and, countOrdP_eq_val_and]
  · rw [if_neg hcc, if_neg hcc]

/-! ## Preservation of the uniqueness invariant I1 by each operation -/

theorem uniq_insertTask (s : Store) (newId : Nat) (ti de : String) (c' : Col)
    (ord : Option Int) (h : ∀ c o, countOrd s c o ≤ 1) :
    ∀ c o, countOrd (insertTask s newId ti de c' ord) c o ≤ 1 := by
  have happend : ∀ (v : Int), countOrd s c' v = 0 →
      ∀ c o, countOrd (s ++ [newTask newId ti de c' v]) c o ≤ 1 := by
    intro v hv c o
    rw [countOrd_append]
    by_cases hm : c' = c ∧ v = o
    · obtain ⟨hm1, hm2⟩ := hm
      subst hm1; subst hm2
      simp [countOrd, newTask, hv]
    · have : countOrd [newTask newId ti de c' v] c o = 0 := by
        simp only [countOrd, newTask]
        rw [if_neg (fun hx => hm ⟨hx.1, hx.2⟩)]
      rw [this]
      have := h c o
      omega
  cases ord with
  | none =>
    simp only [insertTask]
    exact happend _ (countOrd_getNextOrder s c')
  | some k =>
    simp only [insertTask]
    by_cases hk : k = 0
    · rw [if_pos hk]
      exact happend _ (countOrd_getNextOrder s c')
    · rw [if_neg hk]
      cases hfind : s.find? (fun t => decide (t.columnId = c' ∧ t.order = k)) with
      | none =>
        simp only [hfind]
        have hzero : countOrd s c' k = 0 := by
          apply countOrd_eq_zero_of_forall
          intro t ht hc ho
          have := List.find?_eq_none.mp hfind t ht
          simp at this
          exact this hc ho
        by_cases hk1 : (1 : Int) ≤ k
        · rw [if_pos hk1]
          exact happend _ hzero
        · rw [if_neg hk1]
          exact h
      | some u =>
        simp only [hfind]
        have hshift : ∀ c o, countOrd (shiftBy c' (fun x => k ≤ x) 1 s) c o ≤ 1 := by
          intro c o
          rw [countOrd_shift_ge]
          by_cases hcc : c = c'
          · rw [if_pos hcc]
            have h1 := h c (o - 1)
            have h2 := h c o
            rcases le_or_lt k (o - 1) with hko | hko
            · rw [if_pos hko, if_neg (by omega)]
              omega
            · rw [if_neg (by omega)]
              by_cases hok : o < k
              · rw [if_pos hok]; omega
              · rw [if_neg hok]; omega
          · rw [if_neg hcc]; exact h c o
        have hat_k : countOrd (shiftBy c' (fun x => k ≤ x) 1 s) c' k = 0 := by
          rw [countOrd_shift_ge, if_pos rfl, if_neg (by omega), if_neg (by omega)]
        by_cases hk1 : (1 : Int) ≤ k
        · rw [if_pos hk1]
          intro c o
          rw [countOrd_append]
          by_cases hm : c' = c ∧ k = o
          · obtain ⟨hm1, hm2⟩ := hm
            subst hm1; subst hm2
            rw [hat_k]
            simp [countOrd, newTask]
          · have : countOrd [newTask newId ti de c' k] c o = 0 := by
              simp only [countOrd, newTask]
              rw [if_neg (fun hx => hm ⟨hx.1, hx.2⟩)]
            rw [this]
            have := hshift c o
            omega
        · rw [if_neg hk1]
          exact hshift

theorem uniq_deleteTask (s : Store) (tid : Nat) (s' : Store)
    (hd : deleteTask s tid = .ok s') (h : ∀ c o, countOrd s c o ≤ 1) :
    ∀ c o, countOrd s' c o ≤ 1 := by
  unfold deleteTask at hd
  cases hf : s.find? (fun t => decide (t.id = tid)) with
  | none => rw [hf] at hd; simp at hd
  | some t₀ =>
    rw [hf] at hd
    simp only [Except.ok.injEq] at hd
    subst hd
    intro c o
    rw [countOrd_shift_gt]
    by_cases hcc : c = t₀.columnId
    · rw [if_pos hcc]
      subst hcc
      have e0 := countOrd_removeFirst _ s t₀ t₀.columnId t₀.order hf
      rw [if_pos ⟨rfl, rfl⟩] at e0
      have b0 := h t₀.columnId t₀.order
      rcases lt_trichotomy o t₀.order with ho | ho | ho
      · rw [if_neg (by omega)]
        by_cases hup : t₀.order ≤ o
        · omega
        · rw [if_pos (by omega)]
          have e2 := countOrd_removeFirst _ s t₀ t₀.columnId o hf
          rw [if_neg (by intro hx; omega)] at e2
          have := h t₀.columnId o
          omega
      · subst ho
        rw [if_pos (by omega), if_pos (by omega)]
        have e1 := countOrd_removeFirst _ s t₀ t₀.columnId (t₀.order + 1) hf
        rw [if_neg (by intro hx; omega)] at e1
        have := h t₀.columnId (t₀.order + 1)
        omega
      · rw [if_pos (by omega), if_neg (by omega)]
        have e1 := countOrd_removeFirst _ s t₀ t₀.columnId (o + 1) hf
        rw [if_neg (by intro hx; omega)] at e1
        have := h t₀.columnId (o + 1)
        omega
    · rw [if_neg hcc]
      have e2 := countOrd_removeFirst _ s t₀ c o hf
      rw [if_neg (by intro hx; exact hcc (hx.1.symm))] at e2
      have := h c o
      omega

theorem shiftFun_id (c : Col) (p : Int → Prop) [DecidablePred p] (d : Int) (t : Task) :
    (shiftFun c p d t).id = t.id := by
  unfold shiftFun
  split
  · rfl
  · rfl

theorem shiftFun_columnId (c : Col) (p : Int → Prop) [DecidablePred p] (d : Int) (t : Task) :
    (shiftFun c p d t).columnId = t.columnId := by
  unfold shiftFun
  split
  · rfl
  · rfl

theorem find?_id_map (g : Task → Task) (hg : ∀ t, (g t).id = t.id) (s : Store) (tid : Nat) :
    (s.map g).find? (fun t => decide (t.id = tid)) =
      (s.find? (fun t => decide (t.id = tid))).map g := by
  induction s with
  | nil => rfl
  | cons t ts ih =>
    by_cases hq : t.id = tid
    · rw [List.map_cons, List.find?_cons_of_pos _ (by simp [hg, hq]),
        List.find?_cons_of_pos _ (by simp [hq])]
      rfl
    · rw [List.map_cons, List.find?_cons_of_neg _ (by simp [hg, hq]),
        List.find?_cons_of_neg _ (by simp [hq])]
      exact ih

theorem find?_id_shiftBy (c' : Col) (p : Int → Prop) [DecidablePred p] (d : Int)
    (s : Store) (tid : Nat) :
    (shiftBy c' p d s).find? (fun t => decide (t.id = tid)) =
      (s.find? (fun t => decide (t.id = tid))).map (shiftFun c' p d) := by
  unfold shiftBy
  exact find?_id_map _ (fun t => shiftFun_id c' p d t) s tid

theorem uniq_moveTask (s : Store) (tid : Nat) (nc : Col) (no : Int) (s' : Store)
    (hmv : moveTaskToColumn s tid nc no = .ok s') (h : ∀ c o, countOrd s c o ≤ 1) :
    ∀ c o, countOrd s' c o ≤ 1 := by
  unfold moveTaskToColumn at hmv
  cases hf : s.find? (fun t => decide (t.id = tid)) with
  | none => rw [hf] at hmv; simp at hmv
  | some t₀ =>
    rw [hf] at hmv
    simp only [Except.ok.injEq] at hmv
    have hmem : t₀ ∈ s := List.mem_of_find?_eq_some hf
    by_cases hcol : t₀.columnId ≠ nc
    · rw [if_pos hcol] at hmv
      subst hmv
      intro c o
      have hfind1 := find?_id_shiftBy t₀.columnId (fun x => t₀.order < x) (-1) s tid
      rw [hf] at hfind1
      simp only [Option.map_some'] at hfind1
      have hstable1 : shiftFun t₀.columnId (fun x => t₀.order < x) (-1) t₀ = t₀ := by
        unfold shiftFun
        rw [if_neg]
        intro hx
        exact absurd hx.2 (lt_irrefl _)
      rw [hstable1] at hfind1
      have hfind2 := find?_id_shiftBy nc (fun x => no ≤ x) 1
        (shiftBy t₀.columnId (fun x => t₀.order < x) (-1) s) tid
      rw [hfind1] at hfind2
      simp only [Option.map_some'] at hfind2
      have hstable2 : shiftFun nc (fun x => no ≤ x) 1 t₀ = t₀ := by
        unfold shiftFun
        rw [if_neg]
        intro hx
        exact hcol hx.1
      rw [hstable2] at hfind2
      have he := countOrd_updateFirst (fun t => decide (t.id = tid))
        (fun t => { t with columnId := nc, order := no }) _ t₀ c o hfind2
      dsimp only at he
      rw [countOrd_shift_ge] at he
      by_cases hc1 : c = nc
      · rw [if_pos hc1] at he
        simp only [countOrd_shift_gt] at he
        have hnc : ¬ (c = t₀.columnId) := fun hx => hcol (hx.symm.trans hc1)
        simp only [if_neg hnc] at he
        rw [if_neg (fun hx : t₀.columnId = c ∧ t₀.order = o => hcol (hx.1.trans hc1))] at he
        rcases eq_or_ne no o with hno | hno
        · rw [if_neg (by omega : ¬ no ≤ o - 1), if_neg (by omega : ¬ o < no),
            if_pos ⟨hc1.symm, hno⟩] at he
          omega
        · rw [if_neg (fun hx : nc = c ∧ no = o => hno hx.2)] at he
          rcases lt_trichotomy o no with h1 | h1 | h1
          · rw [if_neg (by omega : ¬ no ≤ o - 1), if_pos h1] at he
            have := h c o
            omega
          · exact absurd h1.symm hno
          · rw [if_pos (by omega : no ≤ o - 1), if_neg (by omega : ¬ o < no)] at he
            have := h c (o - 1)
            omega
      · rw [if_neg hc1] at he
        rw [countOrd_shift_gt] at he
        rw [if_neg (fun hx : nc = c ∧ no = o => hc1 hx.1.symm)] at he
        by_cases hc2 : c = t₀.columnId
        · rw [if_pos hc2] at he
          have hpos : 1 ≤ countOrd s t₀.columnId t₀.order := countOrd_pos_of_mem hmem
          rw [← hc2] at hpos
          rcases lt_trichotomy o t₀.order with h1 | h1 | h1
          · rw [if_neg (fun hx : t₀.columnId = c ∧ t₀.order = o => absurd hx.2 (by omega)),
              if_neg (by omega : ¬ t₀.order ≤ o), if_pos (by omega : o ≤ t₀.order)] at he
            have := h c o
            omega
          · rw [if_pos ⟨hc2.symm, h1.symm⟩, if_pos (by omega : t₀.order ≤ o),
              if_pos (by omega : o ≤ t₀.order)] at he
            rw [← h1] at hpos
            have hb1 := h c (o + 1)
            have hb2 := h c o
            omega
          · rw [if_neg (fun hx : t₀.columnId = c ∧ t₀.order = o => absurd hx.2 (by omega)),
              if_pos (by omega : t₀.order ≤ o), if_neg (by omega : ¬ o ≤ t₀.order)] at he
            have := h c (o + 1)
            omega
        · rw [if_neg hc2] at he
          rw [if_neg (fun hx : t₀.columnId = c ∧ t₀.order = o => hc2 hx.1.symm)] at he
          have := h c o
          omega
    · have hceq : t₀.columnId = nc := not_not.mp hcol
      rw [if_neg hcol] at hmv
      rcases lt_trichotomy no t₀.order with hlt | heq | hgt
      · rw [if_pos hlt] at hmv
        subst hmv
        intro c o
        have hfind1 := find?_id_shiftBy t₀.columnId (fun x => no ≤ x ∧ x < t₀.order) 1 s tid
        rw [hf] at hfind1
        simp only [Option.map_some'] at hfind1
        have hstable1 : shiftFun t₀.columnId (fun x => no ≤ x ∧ x < t₀.order) 1 t₀ = t₀ := by
          unfold shiftFun
          rw [if_neg]
          intro hx
          exact absurd hx.2.2 (lt_irrefl _)
        rw [hstable1] at hfind1
        have he := countOrd_updateFirst (fun t => decide (t.id = tid))
          (fun t => { t with columnId := nc, order := no }) _ t₀ c o hfind1
        dsimp only at he
        rw [countOrd_shift_range_up] at he
        by_cases hcc : c = t₀.columnId
        · rw [if_pos hcc] at he
          have hpos : 1 ≤ countOrd s t₀.columnId t₀.order := countOrd_pos_of_mem hmem
          rw [← hcc] at hpos
          rcases eq_or_ne o t₀.order with ho | ho
          · rw [if_pos ⟨hcc.symm, ho.symm⟩,
              if_pos (by omega : no ≤ o - 1 ∧ o - 1 < t₀.order),
              if_pos (by omega : ¬(no ≤ o ∧ o < t₀.order)),
              if_neg (fun hx : nc = c ∧ no = o => by omega)] at he
            rw [← ho] at hpos
            have h1 := h c (o - 1)
            have h2 := h c o
            omega
          · rw [if_neg (fun hx : t₀.columnId = c ∧ t₀.order = o => ho hx.2.symm)] at he
            rcases eq_or_ne o no with ho2 | ho2
            · rw [if_neg (by omega : ¬(no ≤ o - 1 ∧ o - 1 < t₀.order)),
                if_neg (by omega : ¬¬(no ≤ o ∧ o < t₀.order)),
                if_pos ⟨(hcc.trans hceq).symm, ho2.symm⟩] at he
              omega
            · rw [if_neg (fun hx : nc = c ∧ no = o => ho2 hx.2.symm)] at he
              by_cases hA : no ≤ o - 1 ∧ o - 1 < t₀.order
              · rw [if_pos hA, if_neg (by omega : ¬¬(no ≤ o ∧ o < t₀.order))] at he
                have := h c (o - 1)
                omega
              · rw [if_neg hA] at he
                by_cases hB : ¬(no ≤ o ∧ o < t₀.order)
                · rw [if_pos hB] at he
                  have := h c o
                  omega
                · rw [if_neg hB] at he
                  omega
        · rw [if_neg hcc] at he
          rw [if_neg (fun hx : t₀.columnId = c ∧ t₀.order = o => hcc hx.1.symm),
            if_neg (fun hx : nc = c ∧ no = o => hcc (hceq.trans hx.1).symm)] at he
          have := h c o
          omega
      · rw [if_neg (by omega : ¬ no < t₀.order), if_neg (by omega : ¬ t₀.order < no)] at hmv
        subst hmv
        intro c o
        have he := countOrd_updateFirst (fun t => decide (t.id = tid))
          (fun t => { t with columnId := nc, order := no }) _ t₀ c o hf
        dsimp only at he
        rw [hceq, ← heq] at he
        by_cases hX : nc = c ∧ no = o
        · simp only [if_pos hX] at he
          have := h c o
          omega
        · simp only [if_neg hX] at he
          have := h c o
          omega
      · rw [if_neg (by omega : ¬ no < t₀.order), if_pos hgt] at hmv
        subst hmv
        intro c o
        have hfind1 := find?_id_shiftBy t₀.columnId (fun x => t₀.order < x ∧ x ≤ no) (-1) s tid
        rw [hf] at hfind1
        simp only [Option.map_some'] at hfind1
        have hstable1 : shiftFun t₀.columnId (fun x => t₀.order < x ∧ x ≤ no) (-1) t₀ = t₀ := by
          unfold shiftFun
          rw [if_neg]
          intro hx
          exact absurd hx.2.1 (lt_irrefl _)
        rw [hstable1] at hfind1
        have he := countOrd_updateFirst (fun t => decide (t.id = tid))
          (fun t => { t with columnId := nc, order := no }) _ t₀ c o hfind1
        dsimp only at he
        rw [countOrd_shift_range_down] at he
        by_cases hcc : c = t₀.columnId
        · rw [if_pos hcc] at he
          have hpos : 1 ≤ countOrd s t₀.columnId t₀.order := countOrd_pos_of_mem hmem
          rw [← hcc] at hpos
          rcases eq_or_ne o t₀.order with ho | ho
          · rw [if_pos ⟨hcc.symm, ho.symm⟩,
              if_pos (by omega : t₀.order < o + 1 ∧ o + 1 ≤ no),
              if_pos (by omega : ¬(t₀.order < o ∧ o ≤ no)),
              if_neg (fun hx : nc = c ∧ no = o => by omega)] at he
            rw [← ho] at hpos
            have h1 := h c (o + 1)
            have h2 := h c o
            omega
          · rw [if_neg (fun hx : t₀.columnId = c ∧ t₀.order = o => ho hx.2.symm)] at he
            rcases eq_or_ne o no with ho2 | ho2
            · rw [if_neg (by omega : ¬(t₀.order < o + 1 ∧ o + 1 ≤ no)),
                if_neg (by omega : ¬¬(t₀.order < o ∧ o ≤ no)),
                if_pos ⟨(hcc.trans hceq).symm, ho2.symm⟩] at he
              omega
            · rw [if_neg (fun hx : nc = c ∧ no = o => ho2 hx.2.symm)] at he
              by_cases hA : t₀.order < o + 1 ∧ o + 1 ≤ no
              · rw [if_pos hA, if_neg (by omega : ¬¬(t₀.order < o ∧ o ≤ no))] at he
                have := h c (o + 1)
                omega
              · rw [if_neg hA] at he
                by_cases hB : ¬(t₀.order < o ∧ o ≤ no)
                · rw [if_pos hB] at he
                  have := h c o
                  omega
                · rw [if_neg hB] at he
                  omega
        · rw [if_neg hcc] at he
          rw [if_neg (fun hx : t₀.columnId = c ∧ t₀.order = o => hcc hx.1.symm),
            if_neg (fun hx : nc = c ∧ no = o => hcc (hceq.trans hx.1).symm)] at he
          have := h c o
          omega

theorem colTasks_map_pres (g : Task → Task) (hg : ∀ t, (g t).columnId = t.columnId)
    (s : Store) (c : Col) : colTasks (s.map g) c = (colTasks s c).map g := by
  induction s with
  | nil => rfl
  | cons t ts ih =>
    unfold colTasks at *
    rw [List.map_cons, List.filter_cons, List.filter_cons]
    by_cases hc : t.columnId = c
    · rw [if_pos (by simpa [hg] using hc), if_pos (by simpa using hc), List.map_cons]
      exact congrArg _ ih
    · rw [if_neg (by simpa [hg] using hc), if_neg (by simpa using hc)]
      exact ih

theorem posRange_succ (k : Nat) : posRange (k + 1) = posRange k ++ [(k : Int) + 1] := by
  unfold posRange
  rw [List.range_succ, List.map_append]
  rfl

theorem posRange_count (n : Nat) (o : Int) :
    (posRange n).count o = if 1 ≤ o ∧ o ≤ (n : Int) then 1 else 0 := by
  induction n with
  | zero =>
    rw [if_neg (by omega : ¬(1 ≤ o ∧ o ≤ ((0 : Nat) : Int)))]
    rfl
  | succ k ih =>
    rw [posRange_succ, List.count_append, ih, List.count_cons, List.count_nil]
    simp only [beq_iff_eq]
    by_cases ho : (k : Int) + 1 = o
    · rw [if_pos ho, if_neg (by omega : ¬(1 ≤ o ∧ o ≤ (k : Int))),
        if_pos (by omega : 1 ≤ o ∧ o ≤ ((k + 1 : Nat) : Int))]
    · rw [if_neg ho]
      by_cases hin : 1 ≤ o ∧ o ≤ (k : Int)
      · rw [if_pos hin, if_pos (by omega : 1 ≤ o ∧ o ≤ ((k + 1 : Nat) : Int))]
      · rw [if_neg hin, if_neg (by omega : ¬(1 ≤ o ∧ o ≤ ((k + 1 : Nat) : Int)))]

theorem updateFirst_no_match (q : Task → Bool) (f : Task → Task) (s : Store)
    (h : ∀ x ∈ s, q x = false) : updateFirst q f s = s := by
  induction s with
  | nil => rfl
  | cons t ts ih =>
    simp only [updateFirst]
    rw [if_neg (by
      rw [h t (List.mem_cons_self t ts)]
      exact Bool.false_ne_true)]
    rw [ih (fun y hy => h y (List.mem_cons_of_mem t hy))]

theorem updateFirst_forall (q : Task → Bool) (f : Task → Task) (p : Task → Prop)
    (hp : ∀ t, p t → p (f t)) (s : Store) (h : ∀ t ∈ s, p t) :
    ∀ t ∈ updateFirst q f s, p t := by
  induction s with
  | nil => intro t ht; simp [updateFirst] at ht
  | cons x ts ih =>
    intro t ht
    by_cases hq : q x
    · simp only [updateFirst, if_pos hq] at ht
      rcases List.mem_cons.mp ht with ht | ht
      · rw [ht]
        exact hp x (h x (List.mem_cons_self x ts))
      · exact h t (List.mem_cons_of_mem x ht)
    · simp only [updateFirst, if_neg hq] at ht
      rcases List.mem_cons.mp ht with ht | ht
      · rw [ht]
        exact h x (List.mem_cons_self x ts)
      · exact ih (fun y hy => h y (List.mem_cons_of_mem x hy)) t ht

/-! ## Bulk reorder under the unique `(columnId, order)` index -/

theorem uniq_applyReorder (c : Col) (s : Store) (u : Nat × Int) (s' : Store)
    (ha : applyReorder c s u = .ok s') (h : ∀ c' o, countOrd s c' o ≤ 1) :
    ∀ c' o, countOrd s' c' o ≤ 1 := by
  unfold applyReorder at ha
  cases hf : s.find? (fun t => decide (t.id = u.1 ∧ t.columnId = c)) with
  | none =>
    rw [hf] at ha
    simp only [Except.ok.injEq] at ha
    subst ha
    exact h
  | some t =>
    rw [hf] at ha
    dsimp only at ha
    cases hg : s.find? (fun x => decide (¬ x = t ∧ x.columnId = c ∧ x.order = u.2)) with
    | some _ => rw [hg] at ha; simp at ha
    | none =>
      rw [hg] at ha
      simp only [Except.ok.injEq] at ha
      subst ha
      have ht : t.id = u.1 ∧ t.columnId = c := by
        have := List.find?_some hf
        simpa using this
      intro c' o
      have he := countOrd_updateFirst (fun x => decide (x.id = u.1 ∧ x.columnId = c))
        (fun x => { x with order := u.2 }) s t c' o hf
      dsimp only at he
      by_cases hc' : t.columnId = c'
      · by_cases ho2 : u.2 = o
        · by_cases hto : t.order = o
          · rw [if_pos ⟨hc', hto⟩, if_pos ⟨hc', ho2⟩] at he
            have := h c' o
            omega
          · rw [if_neg (fun hx : t.columnId = c' ∧ t.order = o => hto hx.2),
              if_pos ⟨hc', ho2⟩] at he
            have hzero : countOrd s c' o = 0 := by
              apply countOrd_eq_zero_of_forall
              intro x hx hxc hxo
              have hnx := List.find?_eq_none.mp hg x hx
              simp only [decide_eq_true_eq, not_and, not_not] at hnx
              have hxt : x = t := by
                by_contra hne
                exact hnx hne (by rw [hxc, ← hc']; exact ht.2) (by rw [hxo]; exact ho2.symm)
              have : t.order = o := by rw [← hxt]; exact hxo
              exact hto this
            omega
        · by_cases hto : t.order = o
          · rw [if_pos ⟨hc', hto⟩,
              if_neg (fun hx : t.columnId = c' ∧ u.2 = o => ho2 hx.2)] at he
            have := h c' o
            omega
          · rw [if_neg (fun hx : t.columnId = c' ∧ t.order = o => hto hx.2),
              if_neg (fun hx : t.columnId = c' ∧ u.2 = o => ho2 hx.2)] at he
            have := h c' o
            omega
      · rw [if_neg (fun hx : t.columnId = c' ∧ t.order = o => hc' hx.1),
          if_neg (fun hx : t.columnId = c' ∧ u.2 = o => hc' hx.1)] at he
        have := h c' o
        omega

theorem uniq_reorderTasks (s : Store) (c : Col) (us : List (Nat × Int))
    (h : ∀ c' o, countOrd s c' o ≤ 1) :
    ∀ c' o, countOrd (reorderTasks s c us).1 c' o ≤ 1 := by
  induction us generalizing s with
  | nil => exact h
  | cons u us ih =>
    show ∀ c' o, countOrd (match applyReorder c s u with
      | .ok s' => reorderTasks s' c us
      | .error e => (s, some e)).1 c' o ≤ 1
    cases ha : applyReorder c s u with
    | ok s' => exact ih s' (uniq_applyReorder c s u s' ha h)
    | error e => exact h

/-- A successful `updateOne` iteration only rewrites `order` fields: every
property of the store's tasks depending only on `id` and `columnId` survives. -/
theorem applyReorder_pres_idcol (c : Col) (s : Store) (v : Nat × Int) (s' : Store)
    (ha : applyReorder c s v = .ok s') (p : Task → Prop)
    (hp : ∀ t o, p t → p { t with order := o })
    (h : ∀ t ∈ s, p t) : ∀ t ∈ s', p t := by
  unfold applyReorder at ha
  cases hf : s.find? (fun t => decide (t.id = v.1 ∧ t.columnId = c)) with
  | none =>
    rw [hf] at ha
    simp only [Except.ok.injEq] at ha
    subst ha
    exact h
  | some t =>
    rw [hf] at ha
    dsimp only at ha
    cases hg : s.find? (fun x => decide (¬ x = t ∧ x.columnId = c ∧ x.order = v.2)) with
    | some _ => rw [hg] at ha; simp at ha
    | none =>
      rw [hg] at ha
      simp only [Except.ok.injEq] at ha
      subst ha
      exact updateFirst_forall _ _ p (fun t ht => hp t v.2 ht) s h

example : getNextOrder [⟨1, "Aaaaa", "", .todo, 1⟩, ⟨2, "Bbbbb", "", .todo, 2⟩] .todo = 3 := by
  decide

example : getNextOrder [] .todo = 1 := by decide

example :
    applyOp [⟨1, "Aaaaa", "", .todo, 1⟩, ⟨2, "Bbbbb", "", .todo, 2⟩, ⟨3, "Ccccc", "", .todo, 3⟩]
      (.move 2 .todo 3) =
    [⟨1, "Aaaaa", "", .todo, 1⟩, ⟨2, "Bbbbb", "", .todo, 3⟩, ⟨3, "Ccccc", "", .todo, 2⟩] := by
  decide

/-! ## Pointwise decompositions for the single-task operations -/

theorem find?_decomp (q : Task → Bool) (l₁ l₂ : Store) (t : Task)
    (h₁ : ∀ x ∈ l₁, q x = false) (ht : q t) :
    (l₁ ++ t :: l₂).find? q = some t := by
  induction l₁ with
  | nil => exact List.find?_cons_of_pos _ ht
  | cons x l₁ ih =>
    rw [List.cons_append, List.find?_cons_of_neg _ (by
      rw [h₁ x (List.mem_cons_self x l₁)]
      exact Bool.false_ne_true)]
    exact ih (fun y hy => h₁ y (List.mem_cons_of_mem x hy))

theorem updateFirst_decomp (q : Task → Bool) (f : Task → Task) (l₁ : Store) (t : Task)
    (l₂ : Store) (h₁ : ∀ x ∈ l₁, q x = false) (ht : q t) :
    updateFirst q f (l₁ ++ t :: l₂) = l₁ ++ f t :: l₂ := by
  induction l₁ with
  | nil =>
    rw [List.nil_append, List.nil_append]
    simp only [updateFirst, if_pos ht]
  | cons x l₁ ih =>
    rw [List.cons_append, List.cons_append]
    simp only [updateFirst]
    rw [if_neg (by
      rw [h₁ x (List.mem_cons_self x l₁)]
      exact Bool.false_ne_true)]
    rw [ih (fun y hy => h₁ y (List.mem_cons_of_mem x hy))]

theorem removeFirst_decomp (q : Task → Bool) (l₁ : Store) (t : Task) (l₂ : Store)
    (h₁ : ∀ x ∈ l₁, q x = false) (ht : q t) :
    removeFirst q (l₁ ++ t :: l₂) = l₁ ++ l₂ := by
  induction l₁ with
  | nil =>
    rw [List.nil_append, List.nil_append]
    simp only [removeFirst, if_pos ht]
  | cons x l₁ ih =>
    rw [List.cons_append, List.cons_append]
    simp only [removeFirst]
    rw [if_neg (by
      rw [h₁ x (List.mem_cons_self x l₁)]
      exact Bool.false_ne_true)]
    rw [ih (fun y hy => h₁ y (List.mem_cons_of_mem x hy))]

theorem shiftBy_append_cons (c : Col) (p : Int → Prop) [DecidablePred p] (d : Int)
    (l₁ : Store) (t : Task) (l₂ : Store) :
    shiftBy c p d (l₁ ++ t :: l₂) =
      shiftBy c p d l₁ ++ shiftFun c p d t :: shiftBy c p d l₂ := by
  unfold shiftBy
  rw [List.map_append, List.map_cons]

theorem shiftBy_append (c : Col) (p : Int → Prop) [DecidablePred p] (d : Int)
    (l₁ l₂ : Store) :
    shiftBy c p d (l₁ ++ l₂) = shiftBy c p d l₁ ++ shiftBy c p d l₂ := by
  unfold shiftBy
  rw [List.map_append]

/-- A task record with its own order put back is itself. -/
theorem update_order_self (x : Task) (v : Int) (h : v = x.order) :
    ({ x with order := v } : Task) = x := by
  subst h
  rfl

theorem moveAcross_comp (cs ct : Col) (os ot : Int) (hcol : cs ≠ ct) (x : Task) :
    shiftFun ct (fun o => ot ≤ o) 1 (shiftFun cs (fun o => os < o) (-1) x) =
      moveAcrossSpec cs ct os ot x := by
  unfold shiftFun moveAcrossSpec
  by_cases h1 : x.columnId = cs ∧ os < x.order
  · rw [if_pos h1, if_pos h1,
      if_neg (fun hx : ({ x with order := x.order + (-1) } : Task).columnId = ct ∧ _ =>
        hcol (h1.1.symm.trans hx.1))]
    congr 1
  · rw [if_neg h1, if_neg h1]

theorem shiftBy_comp_moveAcross (cs ct : Col) (os ot : Int) (hcol : cs ≠ ct) (l : Store) :
    shiftBy ct (fun o => ot ≤ o) 1 (shiftBy cs (fun o => os < o) (-1) l) =
      l.map (moveAcrossSpec cs ct os ot) := by
  unfold shiftBy
  rw [List.map_map]
  apply List.map_congr_left
  intro x _
  exact moveAcross_comp cs ct os ot hcol x

theorem moveTaskToColumn_cross (l₁ l₂ : Store) (t : Task) (nc : Col) (no : Int)
    (hids : ∀ x ∈ l₁, x.id ≠ t.id) (hcol : t.columnId ≠ nc) :
    moveTaskToColumn (l₁ ++ t :: l₂) t.id nc no =
      .ok (l₁.map (moveAcrossSpec t.columnId nc t.order no) ++
        { t with columnId := nc, order := no } ::
          l₂.map (moveAcrossSpec t.columnId nc t.order no)) := by
  have hq : ∀ x ∈ l₁, (fun x => decide (x.id = t.id)) x = false := by
    intro x hx
    simpa using hids x hx
  unfold moveTaskToColumn
  rw [find?_decomp _ l₁ l₂ t hq (by simp)]
  dsimp only
  rw [if_pos hcol]
  have hst1 : shiftFun t.columnId (fun o => t.order < o) (-1) t = t := by
    unfold shiftFun
    rw [if_neg]
    intro hx
    exact absurd hx.2 (lt_irrefl _)
  have hst2 : shiftFun nc (fun o => no ≤ o) 1 t = t := by
    unfold shiftFun
    rw [if_neg]
    intro hx
    exact hcol hx.1
  rw [shiftBy_append_cons, hst1, shiftBy_append_cons, hst2]
  have hq' : ∀ x ∈ shiftBy nc (fun o => no ≤ o) 1
      (shiftBy t.columnId (fun o => t.order < o) (-1) l₁),
      (fun x => decide (x.id = t.id)) x = false := by
    intro x hx
    unfold shiftBy at hx
    obtain ⟨y, hy, hyx⟩ := List.mem_map.mp hx
    obtain ⟨z, hz, hzy⟩ := List.mem_map.mp hy
    have hzid : x.id = z.id := by
      rw [← hyx, ← hzy, shiftFun_id, shiftFun_id]
    simp only [decide_eq_false_iff_not]
    rw [hzid]
    exact hids z hz
  rw [updateFirst_decomp _ _ _ _ _ hq' (by simp)]
  rw [shiftBy_comp_moveAcross t.columnId nc t.order no hcol l₁,
    shiftBy_comp_moveAcross t.columnId nc t.order no hcol l₂]

theorem moveTaskToColumn_within (l₁ l₂ : Store) (t : Task) (n : Int)
    (hids : ∀ x ∈ l₁, x.id ≠ t.id) :
    moveTaskToColumn (l₁ ++ t :: l₂) t.id t.columnId n =
      .ok (l₁.map (moveWithinSpec t.columnId t.order n) ++
        { t with order := n } ::
          l₂.map (moveWithinSpec t.columnId t.order n)) := by
  have hq : ∀ x ∈ l₁, (fun x => decide (x.id = t.id)) x = false := by
    intro x hx
    simpa using hids x hx
  unfold moveTaskToColumn
  rw [find?_decomp _ l₁ l₂ t hq (by simp)]
  dsimp only
  rw [if_neg (not_not_intro (rfl : t.columnId = t.columnId))]
  rcases lt_trichotomy n t.order with hlt | heq | hgt
  · rw [if_pos hlt]
    have hst : shiftFun t.columnId (fun o => n ≤ o ∧ o < t.order) 1 t = t := by
      unfold shiftFun
      rw [if_neg]
      intro hx
      exact absurd hx.2.2 (lt_irrefl _)
    rw [shiftBy_append_cons, hst]
    have hq' : ∀ x ∈ shiftBy t.columnId (fun o => n ≤ o ∧ o < t.order) 1 l₁,
        (fun x => decide (x.id = t.id)) x = false := by
      intro x hx
      unfold shiftBy at hx
      obtain ⟨y, hy, hyx⟩ := List.mem_map.mp hx
      simp only [decide_eq_false_iff_not]
      rw [← hyx, shiftFun_id]
      exact hids y hy
    rw [updateFirst_decomp _ _ _ _ _ hq' (by simp)]
    have hmaps : ∀ l : Store, shiftBy t.columnId (fun o => n ≤ o ∧ o < t.order) 1 l =
        l.map (moveWithinSpec t.columnId t.order n) := by
      intro l
      unfold shiftBy
      apply List.map_congr_left
      intro x _
      unfold shiftFun moveWithinSpec
      rw [if_pos hlt]
    rw [hmaps l₁, hmaps l₂]
  · rw [if_neg (by omega : ¬ n < t.order), if_neg (by omega : ¬ t.order < n)]
    rw [updateFirst_decomp _ _ _ _ _ hq (by simp)]
    have hspec : ∀ x : Task, moveWithinSpec t.columnId t.order n x = x := by
      intro x
      unfold moveWithinSpec
      rw [if_neg (by omega : ¬ n < t.order), if_neg (by omega : ¬ t.order < n)]
    have hl : ∀ l : Store, l.map (moveWithinSpec t.columnId t.order n) = l := by
      intro l
      rw [List.map_congr_left (fun x _ => hspec x), List.map_id']
    rw [hl l₁, hl l₂]
  · rw [if_neg (by omega : ¬ n < t.order), if_pos hgt]
    have hst : shiftFun t.columnId (fun o => t.order < o ∧ o ≤ n) (-1) t = t := by
      unfold shiftFun
      rw [if_neg]
      intro hx
      exact absurd hx.2.1 (lt_irrefl _)
    rw [shiftBy_append_cons, hst]
    have hq' : ∀ x ∈ shiftBy t.columnId (fun o => t.order < o ∧ o ≤ n) (-1) l₁,
        (fun x => decide (x.id = t.id)) x = false := by
      intro x hx
      unfold shiftBy at hx
      obtain ⟨y, hy, hyx⟩ := List.mem_map.mp hx
      simp only [decide_eq_false_iff_not]
      rw [← hyx, shiftFun_id]
      exact hids y hy
    rw [updateFirst_decomp _ _ _ _ _ hq' (by simp)]
    have hmaps : ∀ l : Store, shiftBy t.columnId (fun o => t.order < o ∧ o ≤ n) (-1) l =
        l.map (moveWithinSpec t.columnId t.order n) := by
      intro l
      unfold shiftBy
      apply List.map_congr_left
      intro x _
      unfold shiftFun moveWithinSpec
      rw [if_neg (by omega : ¬ n < t.order), if_pos hgt]
      dsimp only
      by_cases hcx : x.columnId = t.columnId ∧ t.order < x.order ∧ x.order ≤ n
      · rw [if_pos hcx, if_pos hcx]
        congr 1
      · rw [if_neg hcx, if_neg hcx]
    rw [hmaps l₁, hmaps l₂]

theorem moveAcross_round (A cb : Col) (a b : Int) (hAB : A ≠ cb) (x : Task)
    (hx : x.columnId = A → x.order ≠ a) :
    moveAcrossSpec cb A b a (moveAcrossSpec A cb a b x) = x := by
  unfold moveAcrossSpec
  by_cases h1 : x.columnId = A ∧ a < x.order
  · rw [if_pos h1]
    dsimp only
    rw [if_neg (fun hy : x.columnId = cb ∧ b < x.order - 1 => hAB (h1.1.symm.trans hy.1))]
    rw [if_pos (⟨h1.1, by omega⟩ : x.columnId = A ∧ a ≤ x.order - 1)]
    apply update_order_self
    omega
  · rw [if_neg h1]
    by_cases h2 : x.columnId = cb ∧ b ≤ x.order
    · rw [if_pos h2]
      dsimp only
      rw [if_pos (⟨h2.1, by omega⟩ : x.columnId = cb ∧ b < x.order + 1)]
      apply update_order_self
      omega
    · rw [if_neg h2]
      rw [if_neg (fun hy : x.columnId = cb ∧ b < x.order => h2 ⟨hy.1, by omega⟩)]
      rw [if_neg (fun hy : x.columnId = A ∧ a ≤ x.order => by
        have hne := hx hy.1
        have hnlt : ¬ a < x.order := fun hlt => h1 ⟨hy.1, hlt⟩
        omega)]

theorem no_other_at (l₁ l₂ : Store) (t : Task) (c : Col) (o : Int)
    (h : countOrd (l₁ ++ t :: l₂) c o ≤ 1) (htc : t.columnId = c) (hto : t.order = o) :
    ∀ x, (x ∈ l₁ ∨ x ∈ l₂) → x.columnId = c → x.order ≠ o := by
  intro x hx hxc hxo
  rw [countOrd_append] at h
  simp only [countOrd] at h
  rw [if_pos ⟨htc, hto⟩] at h
  rcases hx with hx | hx
  · have hp := countOrd_pos_of_mem hx
    rw [hxc, hxo] at hp
    omega
  · have hp := countOrd_pos_of_mem hx
    rw [hxc, hxo] at hp
    omega

/-! ## Remaining small helpers -/

theorem maxOrderIn_none_of_empty (s : Store) (c : Col) (h : colTasks s c = []) :
    maxOrderIn s c = none := by
  induction s with
  | nil => rfl
  | cons t ts ih =>
    unfold colTasks at h
    rw [List.filter_cons] at h
    by_cases hc : t.columnId = c
    · rw [if_pos (by simpa using hc)] at h
      exact absurd h (List.cons_ne_nil t _)
    · rw [if_neg (by simpa using hc)] at h
      unfold maxOrderIn
      rw [if_neg hc]
      exact ih h

theorem maxOrderIn_mem (s : Store) (c : Col) (m : Int) (h : maxOrderIn s c = some m) :
    ∃ t ∈ s, t.columnId = c ∧ t.order = m := by
  induction s generalizing m with
  | nil => simp [maxOrderIn] at h
  | cons t ts ih =>
    unfold maxOrderIn at h
    by_cases hc : t.columnId = c
    · rw [if_pos hc] at h
      cases hr : maxOrderIn ts c with
      | none =>
        rw [hr] at h
        injection h with h
        exact ⟨t, List.mem_cons_self t ts, hc, h⟩
      | some m' =>
        rw [hr] at h
        injection h with h
        have h2 : max t.order m' = m := h
        rcases le_total m' t.order with hle | hle
        · refine ⟨t, List.mem_cons_self t ts, hc, ?_⟩
          rw [← h2]
          exact (max_eq_left hle).symm
        · have hm' : m' = m := by
            rw [← h2]
            exact (max_eq_right hle).symm
          obtain ⟨u, hu, huc, huo⟩ := ih m' hr
          exact ⟨u, List.mem_cons_of_mem t hu, huc, huo.trans hm'⟩
    · rw [if_neg hc] at h
      obtain ⟨u, hu, huc, huo⟩ := ih m h
      exact ⟨u, List.mem_cons_of_mem t hu, huc, huo⟩

theorem maxOrderIn_isSome_of_mem (s : Store) (c : Col) (t : Task)
    (ht : t ∈ s) (hc : t.columnId = c) : ∃ m, maxOrderIn s c = some m := by
  obtain ⟨m, hm, _⟩ := le_maxOrderIn ht hc
  exact ⟨m, hm⟩

theorem moveAcrossSpec_id (cs ct : Col) (os ot : Int) (x : Task) :
    (moveAcrossSpec cs ct os ot x).id = x.id := by
  unfold moveAcrossSpec
  split
  · rfl
  · split
    · rfl
    · rfl

theorem deleteSpec_columnId (c : Col) (j : Int) (x : Task) :
    (deleteSpec c j x).columnId = x.columnId := by
  unfold deleteSpec
  split
  · rfl
  · rfl

/-! ## The claims -/

/-- C7 (code bug): on a task id absent from the store, the engine's move and
the delete handler perform no writes (`applyOp` leaves the store unchanged),
but `moveTaskToColumn` wraps its NotFound error into the generic message
`'Failed to move task: Task not found'`; the PUT handler's classifier
`error.message === 'Task not found'` therefore never matches it and answers
500 instead of 404, so the NotFound kind is not stably distinguishable by the
caller, against the claim and routes/tasks.js's own intent. -/
theorem C7_notfound_not_distinguishable :
    moveTaskToColumn [⟨1, "First demo task", "", .todo, 1⟩] 99 .inProgress 1 =
      .error "Failed to move task: Task not found" ∧
    putErrorStatus "Failed to move task: Task not found" = 500 ∧
    putErrorStatus "Task not found" = 404 ∧
    deleteTask [⟨1, "First demo task", "", .todo, 1⟩] 99 = .error "Task not found" ∧
    applyOp [⟨1, "First demo task", "", .todo, 1⟩] (Op.move 99 .inProgress 1) =
      [⟨1, "First demo task", "", .todo, 1⟩] ∧
    applyOp [⟨1, "First demo task", "", .todo, 1⟩] (Op.delete 99) =
      [⟨1, "First demo task", "", .todo, 1⟩] := by
  refine ⟨rfl, by decide, by decide, rfl, by decide, by decide⟩

/-- C10: a supplied order of 0 — falsy in JavaScript, like an absent order —
is treated as absent: the new task is appended with the auto-computed order,
which exceeds every existing order of the column; on a non-empty column it is
some existing task's maximal order plus one, and on an empty column it is 1. -/
theorem C10_zero_order_autocomputed (s : Store) (newId : Nat) (ti de : String) (c : Col) :
    insertTask s newId ti de c (some 0) = insertTask s newId ti de c none ∧
    insertTask s newId ti de c (some 0) =
      s ++ [newTask newId ti de c (getNextOrder s c)] ∧
    (∀ t ∈ s, t.columnId = c → t.order < getNextOrder s c) ∧
    (colTasks s c = [] → getNextOrder s c = 1) ∧
    (colTasks s c ≠ [] → ∃ t ∈ s, t.columnId = c ∧ getNextOrder s c = t.order + 1) := by
  refine ⟨rfl, rfl, fun t ht hc => lt_getNextOrder ht hc, ?_, ?_⟩
  · intro h
    unfold getNextOrder
    rw [maxOrderIn_none_of_empty s c h]
  · intro h
    obtain ⟨t, ht⟩ := List.exists_mem_of_ne_nil _ h
    have htc : t.columnId = c := by
      have := List.of_mem_filter ht
      simpa using this
    have hts : t ∈ s := List.mem_of_mem_filter ht
    obtain ⟨m, hm⟩ := maxOrderIn_isSome_of_mem s c t hts htc
    obtain ⟨u, hu, huc, huo⟩ := maxOrderIn_mem s c m hm
    refine ⟨u, hu, huc, ?_⟩
    unfold getNextOrder
    rw [hm, huo]

/-- Witness for C10 at a concrete store. -/
theorem C10_zero_order_autocomputed_witness :
    insertTask [⟨1, "Aaaaa", "", .todo, 2⟩] 5 "Hello" "" .todo (some 0) =
      [⟨1, "Aaaaa", "", .todo, 2⟩, ⟨5, "Hello", "", .todo, 3⟩] := by
  have h := (C10_zero_order_autocomputed [⟨1, "Aaaaa", "", .todo, 2⟩] 5 "Hello" "" .todo).2.1
  rw [h]
  decide

/-- C9: a bulk-reorder entry whose task id does not exist, or whose task
belongs to another column, matches no document: the entry is silently
skipped — the run with the entry equals the run without it, the referenced
task (if any) is untouched, and `reorderTasks` still completes normally. -/
theorem C9_bulk_skips_foreign_entries (s : Store) (c : Col)
    (us₁ us₂ : List (Nat × Int)) (u : Nat × Int)
    (h : ∀ t ∈ s, ¬(t.id = u.1 ∧ t.columnId = c)) :
    reorderTasks s c (us₁ ++ u :: us₂) = reorderTasks s c (us₁ ++ us₂) := by
  induction us₁ generalizing s with
  | nil =>
    show (match applyReorder c s u with
      | .ok s' => reorderTasks s' c us₂
      | .error e => (s, some e)) = reorderTasks s c us₂
    have hok : applyReorder c s u = .ok s := by
      unfold applyReorder
      have hnone : s.find? (fun t => decide (t.id = u.1 ∧ t.columnId = c)) = none := by
        apply List.find?_eq_none.mpr
        intro x hx
        simpa using h x hx
      rw [hnone]
    rw [hok]
  | cons v us₁ ih =>
    show (match applyReorder c s v with
      | .ok s' => reorderTasks s' c (us₁ ++ u :: us₂)
      | .error e => (s, some e)) =
      (match applyReorder c s v with
      | .ok s' => reorderTasks s' c (us₁ ++ us₂)
      | .error e => (s, some e))
    cases ha : applyReorder c s v with
    | ok s' =>
      exact ih s' (applyReorder_pres_idcol c s v s' ha
        (fun t => ¬(t.id = u.1 ∧ t.columnId = c)) (fun t o ht => ht) h)
    | error e => rfl

/-- Witness for C9 at a concrete store: the entry for the missing id 99 and
the entry addressed to a task of another column are both skipped. -/
theorem C9_bulk_skips_foreign_entries_witness :
    reorderTasks [⟨1, "Aaaaa", "", .todo, 1⟩, ⟨2, "Bbbbb", "", .inProgress, 1⟩] .todo
        ([] ++ (99, 5) :: [(1, 3)]) =
      reorderTasks [⟨1, "Aaaaa", "", .todo, 1⟩, ⟨2, "Bbbbb", "", .inProgress, 1⟩] .todo
        ([] ++ [(1, 3)]) :=
  C9_bulk_skips_foreign_entries _ .todo [] [(1, 3)] (99, 5) (by decide)

/-- C4 counterexample: column todo holds a single task with order 2, so a task
with order ≥ 1 exists; inserting with explicit order 1 finds no task at
exactly order 1 and therefore shifts nothing — the existing task keeps
order 2 instead of being incremented to 3 as the claim requires. -/
theorem C4_counterexample :
    (∃ t ∈ ([⟨1, "Alpha task!", "", Col.todo, 2⟩] : Store),
      t.columnId = Col.todo ∧ (1 : Int) ≤ t.order) ∧
    insertTask [⟨1, "Alpha task!", "", Col.todo, 2⟩] 2 "Beta task!!" "" Col.todo (some 1) =
      [⟨1, "Alpha task!", "", Col.todo, 2⟩, ⟨2, "Beta task!!", "", Col.todo, 1⟩] ∧
    ¬(∃ t ∈ insertTask [⟨1, "Alpha task!", "", Col.todo, 2⟩] 2 "Beta task!!" ""
        Col.todo (some 1), t.id = 1 ∧ t.order = 3) := by
  refine ⟨by decide, by decide, by decide⟩

/-- C4 (amended): for an explicit positive order `k` — the domain the claim
speaks about; a non-positive explicit order is rejected by the schema's
`min: 1` validator — the insert shifts every existing task of the column with
order ≥ `k` up by one exactly when some task occupies exactly order `k`; when
no task occupies exactly `k` — even if tasks with larger orders exist — the
new task is written at `k` and no other task changes. -/
theorem C4_insert_shifts_only_on_exact_hit (s : Store) (newId : Nat) (ti de : String)
    (c : Col) (k : Int) (hk : 0 < k) :
    ((∃ t ∈ s, t.columnId = c ∧ t.order = k) →
      insertTask s newId ti de c (some k) =
        s.map (insertShiftSpec c k) ++ [newTask newId ti de c k]) ∧
    ((∀ t ∈ s, ¬(t.columnId = c ∧ t.order = k)) →
      insertTask s newId ti de c (some k) = s ++ [newTask newId ti de c k]) := by
  constructor
  · rintro ⟨t, ht, htc, hto⟩
    simp only [insertTask]
    rw [if_neg (by omega : ¬ k = 0)]
    have hsome : (s.find? (fun x => decide (x.columnId = c ∧ x.order = k))).isSome := by
      rw [List.find?_isSome]
      exact ⟨t, ht, by simp [htc, hto]⟩
    obtain ⟨u, hu⟩ := Option.isSome_iff_exists.mp hsome
    simp only [hu]
    rw [if_pos (by omega : (1 : Int) ≤ k)]
    rfl
  · intro h
    simp only [insertTask]
    rw [if_neg (by omega : ¬ k = 0)]
    have hnone : s.find? (fun x => decide (x.columnId = c ∧ x.order = k)) = none := by
      apply List.find?_eq_none.mpr
      intro x hx
      simpa using h x hx
    simp only [hnone]
    rw [if_pos (by omega : (1 : Int) ≤ k)]

/-- Witness for the amended C4: the spec scenario — column todo holds A(1),
B(2); inserting "New task" at order 1 yields New=1, A=2, B=3. -/
theorem C4_insert_shifts_only_on_exact_hit_witness :
    insertTask [⟨1, "Task AAAAA", "", .todo, 1⟩, ⟨2, "Task BBBBB", "", .todo, 2⟩]
        3 "New task!" "" .todo (some 1) =
      [⟨1, "Task AAAAA", "", .todo, 2⟩, ⟨2, "Task BBBBB", "", .todo, 3⟩,
        ⟨3, "New task!", "", .todo, 1⟩] := by
  have h := (C4_insert_shifts_only_on_exact_hit
    [⟨1, "Task AAAAA", "", .todo, 1⟩, ⟨2, "Task BBBBB", "", .todo, 2⟩]
    3 "New task!" "" .todo 1 (by decide)).1 (by decide)
  rw [h]
  decide

/-- C2: a cross-column move of task `t` (column `t.columnId`, order `t.order`)
to column `ct` at positive order `ot` succeeds and produces exactly the state
in which every old-column task above `t.order` is decremented, every
target-column task at or above `ot` is incremented, `t` is written with column
`ct` and order `ot`, and every other task is unchanged (`moveAcrossSpec`). -/
theorem C2_move_across (l₁ l₂ : Store) (t : Task) (ct : Col) (ot : Int)
    (hct : t.columnId ≠ ct) (hpos : 0 < ot)
    (hids : ∀ x ∈ l₁, x.id ≠ t.id) :
    moveTaskToColumn (l₁ ++ t :: l₂) t.id ct ot =
      .ok (l₁.map (moveAcrossSpec t.columnId ct t.order ot) ++
        { t with columnId := ct, order := ot } ::
          l₂.map (moveAcrossSpec t.columnId ct t.order ot)) :=
  moveTaskToColumn_cross l₁ l₂ t ct ot hids hct

/-- Witness for C2: moving the middle todo task to in-progress at order 1
closes the todo gap and opens the in-progress slot. -/
theorem C2_move_across_witness :
    moveTaskToColumn
        [⟨1, "Task AAAAA", "", .todo, 1⟩, ⟨2, "Task BBBBB", "", .todo, 2⟩,
          ⟨3, "Task CCCCC", "", .todo, 3⟩, ⟨4, "Task DDDDD", "", .inProgress, 1⟩]
        2 .inProgress 1 =
      .ok [⟨1, "Task AAAAA", "", .todo, 1⟩, ⟨2, "Task BBBBB", "", .inProgress, 1⟩,
        ⟨3, "Task CCCCC", "", .todo, 2⟩, ⟨4, "Task DDDDD", "", .inProgress, 2⟩] := by
  have h := C2_move_across [⟨1, "Task AAAAA", "", .todo, 1⟩]
    [⟨3, "Task CCCCC", "", .todo, 3⟩, ⟨4, "Task DDDDD", "", .inProgress, 1⟩]
    ⟨2, "Task BBBBB", "", .todo, 2⟩ .inProgress 1 (by decide) (by decide) (by decide)
  rw [show ([⟨1, "Task AAAAA", "", .todo, 1⟩, ⟨2, "Task BBBBB", "", .todo, 2⟩,
      ⟨3, "Task CCCCC", "", .todo, 3⟩, ⟨4, "Task DDDDD", "", .inProgress, 1⟩] : Store) =
    [⟨1, "Task AAAAA", "", .todo, 1⟩] ++ ⟨2, "Task BBBBB", "", .todo, 2⟩ ::
      [⟨3, "Task CCCCC", "", .todo, 3⟩, ⟨4, "Task DDDDD", "", .inProgress, 1⟩] from rfl]
  rw [h]
  rfl

/-- C3: a within-column move of task `t` from order `t.order` to positive
order `n` succeeds and produces exactly the state described by
`moveWithinSpec` — the interval between the two orders rotates by one slot and
`t` takes order `n`; when `n = t.order` nothing changes (the maps are the
identity and `t` is rewritten unchanged) yet the call still succeeds. -/
theorem C3_move_within (l₁ l₂ : Store) (t : Task) (n : Int) (hpos : 0 < n)
    (hids : ∀ x ∈ l₁, x.id ≠ t.id) :
    (moveTaskToColumn (l₁ ++ t :: l₂) t.id t.columnId n =
      .ok (l₁.map (moveWithinSpec t.columnId t.order n) ++
        { t with order := n } :: l₂.map (moveWithinSpec t.columnId t.order n))) ∧
    (n = t.order →
      l₁.map (moveWithinSpec t.columnId t.order n) = l₁ ∧
      l₂.map (moveWithinSpec t.columnId t.order n) = l₂ ∧
      ({ t with order := n } : Task) = t) := by
  refine ⟨moveTaskToColumn_within l₁ l₂ t n hids, ?_⟩
  intro heq
  have hspec : ∀ x : Task, moveWithinSpec t.columnId t.order n x = x := by
    intro x
    unfold moveWithinSpec
    rw [if_neg (by omega : ¬ n < t.order), if_neg (by omega : ¬ t.order < n)]
  have hl : ∀ l : Store, l.map (moveWithinSpec t.columnId t.order n) = l := by
    intro l
    rw [List.map_congr_left (fun x _ => hspec x), List.map_id']
  exact ⟨hl l₁, hl l₂, update_order_self t n heq⟩

/-- Witness for C3: the spec scenario — todo holds A(1), B(2), C(3) and
`moveTask(B, todo, 3)` yields A=1, C=2, B=3. -/
theorem C3_move_within_witness :
    moveTaskToColumn
        [⟨1, "Task AAAAA", "", .todo, 1⟩, ⟨2, "Task BBBBB", "", .todo, 2⟩,
          ⟨3, "Task CCCCC", "", .todo, 3⟩] 2 .todo 3 =
      .ok [⟨1, "Task AAAAA", "", .todo, 1⟩, ⟨2, "Task BBBBB", "", .todo, 3⟩,
        ⟨3, "Task CCCCC", "", .todo, 2⟩] := by
  have h := (C3_move_within [⟨1, "Task AAAAA", "", .todo, 1⟩]
    [⟨3, "Task CCCCC", "", .todo, 3⟩]
    ⟨2, "Task BBBBB", "", .todo, 2⟩ 3 (by decide) (by decide)).1
  rw [show ([⟨1, "Task AAAAA", "", .todo, 1⟩, ⟨2, "Task BBBBB", "", .todo, 2⟩,
      ⟨3, "Task CCCCC", "", .todo, 3⟩] : Store) =
    [⟨1, "Task AAAAA", "", .todo, 1⟩] ++ ⟨2, "Task BBBBB", "", .todo, 2⟩ ::
      [⟨3, "Task CCCCC", "", .todo, 3⟩] from rfl]
  rw [h]
  rfl

/-- C8 (code bug): the claimed exact application of a valid collision-free
permutation never happens.  On the spec scenario — column todo holding
A(order 1) and B(order 2) — the valid permutation [(B, 1), (A, 2)] aborts at
its very first `updateOne`: writing order 1 to B collides with A, which still
holds the key (todo, 1), so the unique `(columnId, order)` index (models/
Task.js line 44) rejects the write with E11000, `reorderTasks` rethrows the
wrapped error (the route answers 500), and no task's order changes; in
particular the result is not the claimed `bulkSpec` state.  Every valid
non-identity permutation of a dense column aborts this way at its first
order-changing entry. -/
theorem C8_bulk_reorder_blocked :
    reorderTasks [⟨1, "Task AAAAA", "", .todo, 1⟩, ⟨2, "Task BBBBB", "", .todo, 2⟩] .todo
        [(2, 1), (1, 2)] =
      ([⟨1, "Task AAAAA", "", .todo, 1⟩, ⟨2, "Task BBBBB", "", .todo, 2⟩],
        some ("Failed to reorder tasks: " ++ "E11000 duplicate key error")) ∧
    (reorderTasks [⟨1, "Task AAAAA", "", .todo, 1⟩, ⟨2, "Task BBBBB", "", .todo, 2⟩] .todo
        [(2, 1), (1, 2)]).1 ≠
      bulkSpec .todo [(2, 1), (1, 2)]
        [⟨1, "Task AAAAA", "", .todo, 1⟩, ⟨2, "Task BBBBB", "", .todo, 2⟩] := by
  refine ⟨rfl, by decide⟩

/-- C5: deleting task `t` from its column — whose orders are exactly
`{1..N}` — removes it and decrements every remaining same-column task whose
order exceeded `t.order` (`deleteSpec`), so that the column's orders are
exactly `{1..N-1}` afterwards, and the tasks of every other column are
untouched. -/
theorem C5_delete_compacts (l₁ l₂ : Store) (t : Task) (N : Nat)
    (hids : ∀ x ∈ l₁, x.id ≠ t.id)
    (hperm : (ordersIn (l₁ ++ t :: l₂) t.columnId).Perm (posRange N)) :
    deleteTask (l₁ ++ t :: l₂) t.id =
      .ok (l₁.map (deleteSpec t.columnId t.order) ++
        l₂.map (deleteSpec t.columnId t.order)) ∧
    (ordersIn (l₁.map (deleteSpec t.columnId t.order) ++
        l₂.map (deleteSpec t.columnId t.order)) t.columnId).Perm (posRange (N - 1)) ∧
    (∀ c', c' ≠ t.columnId →
      colTasks (l₁.map (deleteSpec t.columnId t.order) ++
        l₂.map (deleteSpec t.columnId t.order)) c' = colTasks (l₁ ++ l₂) c') := by
  have hq : ∀ x ∈ l₁, (fun x => decide (x.id = t.id)) x = false := by
    intro x hx
    simpa using hids x hx
  have hf : (l₁ ++ t :: l₂).find? (fun x => decide (x.id = t.id)) = some t :=
    find?_decomp _ l₁ l₂ t hq (by simp)
  have hmaps : ∀ l : Store, shiftBy t.columnId (fun o => t.order < o) (-1) l =
      l.map (deleteSpec t.columnId t.order) := by
    intro l
    unfold shiftBy
    apply List.map_congr_left
    intro x _
    unfold shiftFun deleteSpec
    by_cases hcx : x.columnId = t.columnId ∧ t.order < x.order
    · rw [if_pos hcx, if_pos hcx]
      congr 1
    · rw [if_neg hcx, if_neg hcx]
  have hRS : shiftBy t.columnId (fun o => t.order < o) (-1)
      (removeFirst (fun x => decide (x.id = t.id)) (l₁ ++ t :: l₂)) =
      l₁.map (deleteSpec t.columnId t.order) ++ l₂.map (deleteSpec t.columnId t.order) := by
    rw [removeFirst_decomp _ l₁ t l₂ hq (by simp), shiftBy_append, hmaps l₁, hmaps l₂]
  have hdel : deleteTask (l₁ ++ t :: l₂) t.id =
      .ok (l₁.map (deleteSpec t.columnId t.order) ++
        l₂.map (deleteSpec t.columnId t.order)) := by
    unfold deleteTask
    rw [hf]
    dsimp only
    rw [hRS]
  refine ⟨hdel, ?_, ?_⟩
  · have hcnt : ∀ o, countOrd (l₁ ++ t :: l₂) t.columnId o =
        if 1 ≤ o ∧ o ≤ (N : Int) then 1 else 0 := by
      intro o
      rw [countOrd_eq_count, List.Perm.count_eq hperm, posRange_count]
    have htmem : t ∈ l₁ ++ t :: l₂ := List.mem_append_right _ (List.mem_cons_self _ _)
    have htb : 1 ≤ t.order ∧ t.order ≤ (N : Int) := by
      have hp := countOrd_pos_of_mem htmem
      rw [hcnt t.order] at hp
      by_cases hc : 1 ≤ t.order ∧ t.order ≤ (N : Int)
      · exact hc
      · rw [if_neg hc] at hp
        omega
    apply List.perm_iff_count.mpr
    intro o
    rw [← countOrd_eq_count, ← hRS, countOrd_shift_gt, if_pos rfl, posRange_count]
    have e1 := countOrd_removeFirst (fun x => decide (x.id = t.id)) (l₁ ++ t :: l₂)
      t t.columnId (o + 1) hf
    have e2 := countOrd_removeFirst (fun x => decide (x.id = t.id)) (l₁ ++ t :: l₂)
      t t.columnId o hf
    have hc1 := hcnt (o + 1)
    have hc2 := hcnt o
    rcases lt_trichotomy o t.order with h1 | h1 | h1
    · rw [if_neg (by omega : ¬ t.order ≤ o), if_pos (by omega : o ≤ t.order)]
      rw [if_neg (fun hx : t.columnId = t.columnId ∧ t.order = o => by omega)] at e2
      by_cases hin : 1 ≤ o ∧ o ≤ (N : Int)
      · rw [if_pos hin] at hc2
        rw [if_pos (by omega : 1 ≤ o ∧ o ≤ ((N - 1 : Nat) : Int))]
        omega
      · rw [if_neg hin] at hc2
        rw [if_neg (by omega : ¬(1 ≤ o ∧ o ≤ ((N - 1 : Nat) : Int)))]
        omega
    · rw [if_pos (by omega : t.order ≤ o), if_pos (by omega : o ≤ t.order)]
      rw [if_neg (fun hx : t.columnId = t.columnId ∧ t.order = o + 1 => by omega)] at e1
      rw [if_pos (⟨rfl, by omega⟩ : t.columnId = t.columnId ∧ t.order = o)] at e2
      rw [if_pos (by omega : 1 ≤ o ∧ o ≤ (N : Int))] at hc2
      by_cases hin : 1 ≤ o + 1 ∧ o + 1 ≤ (N : Int)
      · rw [if_pos hin] at hc1
        rw [if_pos (by omega : 1 ≤ o ∧ o ≤ ((N - 1 : Nat) : Int))]
        omega
      · rw [if_neg hin] at hc1
        rw [if_neg (by omega : ¬(1 ≤ o ∧ o ≤ ((N - 1 : Nat) : Int)))]
        omega
    · rw [if_pos (by omega : t.order ≤ o), if_neg (by omega : ¬ o ≤ t.order)]
      rw [if_neg (fun hx : t.columnId = t.columnId ∧ t.order = o + 1 => by omega)] at e1
      by_cases hin : 1 ≤ o + 1 ∧ o + 1 ≤ (N : Int)
      · rw [if_pos hin] at hc1
        rw [if_pos (by omega : 1 ≤ o ∧ o ≤ ((N - 1 : Nat) : Int))]
        omega
      · rw [if_neg hin] at hc1
        rw [if_neg (by omega : ¬(1 ≤ o ∧ o ≤ ((N - 1 : Nat) : Int)))]
        omega
  · intro c' hc'
    rw [← List.map_append, colTasks_map_pres _ (deleteSpec_columnId t.columnId t.order) _ c']
    have hid : ∀ x ∈ colTasks (l₁ ++ l₂) c', deleteSpec t.columnId t.order x = x := by
      intro x hx
      have hxc : x.columnId = c' := by
        have := List.of_mem_filter hx
        simpa using this
      unfold deleteSpec
      rw [if_neg (fun hy : x.columnId = t.columnId ∧ t.order < x.order =>
        hc' (hxc.symm.trans hy.1))]
    rw [List.map_congr_left hid, List.map_id']

/-- Witness for C5: the spec scenario — deleting B(2) from a column holding
A(1), B(2), C(3) yields A=1, C=2. -/
theorem C5_delete_compacts_witness :
    deleteTask [⟨1, "Task AAAAA", "", .todo, 1⟩, ⟨2, "Task BBBBB", "", .todo, 2⟩,
        ⟨3, "Task CCCCC", "", .todo, 3⟩] 2 =
      .ok [⟨1, "Task AAAAA", "", .todo, 1⟩, ⟨3, "Task CCCCC", "", .todo, 2⟩] := by
  have h := (C5_delete_compacts [⟨1, "Task AAAAA", "", .todo, 1⟩]
    [⟨3, "Task CCCCC", "", .todo, 3⟩] ⟨2, "Task BBBBB", "", .todo, 2⟩ 3
    (by decide) (by decide)).1
  rw [show ([⟨1, "Task AAAAA", "", .todo, 1⟩, ⟨2, "Task BBBBB", "", .todo, 2⟩,
      ⟨3, "Task CCCCC", "", .todo, 3⟩] : Store) =
    [⟨1, "Task AAAAA", "", .todo, 1⟩] ++ ⟨2, "Task BBBBB", "", .todo, 2⟩ ::
      [⟨3, "Task CCCCC", "", .todo, 3⟩] from rfl]
  rw [h]
  rfl

/-- C6: from a state whose columns each satisfy uniqueness and density
(orders are a permutation of `{1..N}` per column), moving task `t` from its
column at its order to column `cb` at order `b` and then moving it back to
its original column and order restores the store exactly — every task of both
columns (and the moved task itself) regains its original order. -/
theorem C6_move_round_trip (l₁ l₂ : Store) (t : Task) (cb : Col) (b : Int)
    (hcb : t.columnId ≠ cb)
    (hids : ∀ x ∈ l₁, x.id ≠ t.id)
    (hvalid : ∀ c, (ordersIn (l₁ ++ t :: l₂) c).Perm
      (posRange (colTasks (l₁ ++ t :: l₂) c).length)) :
    ∃ s₁, moveTaskToColumn (l₁ ++ t :: l₂) t.id cb b = .ok s₁ ∧
      moveTaskToColumn s₁ t.id t.columnId t.order = .ok (l₁ ++ t :: l₂) := by
  refine ⟨_, moveTaskToColumn_cross l₁ l₂ t cb b hids hcb, ?_⟩
  have hids' : ∀ x ∈ l₁.map (moveAcrossSpec t.columnId cb t.order b),
      x.id ≠ ({ t with columnId := cb, order := b } : Task).id := by
    intro x hx
    obtain ⟨y, hy, hyx⟩ := List.mem_map.mp hx
    show x.id ≠ t.id
    rw [← hyx, moveAcrossSpec_id]
    exact hids y hy
  have h2 := moveTaskToColumn_cross
    (l₁.map (moveAcrossSpec t.columnId cb t.order b))
    (l₂.map (moveAcrossSpec t.columnId cb t.order b))
    ({ t with columnId := cb, order := b } : Task)
    t.columnId t.order hids'
    (show cb ≠ t.columnId from fun h => hcb h.symm)
  dsimp only at h2
  rw [h2]
  have hle1 : ∀ o, countOrd (l₁ ++ t :: l₂) t.columnId o ≤ 1 := by
    intro o
    rw [countOrd_eq_count, List.Perm.count_eq (hvalid t.columnId), posRange_count]
    by_cases hc : 1 ≤ o ∧ o ≤ ((colTasks (l₁ ++ t :: l₂) t.columnId).length : Int)
    · rw [if_pos hc]
    · rw [if_neg hc]
      omega
  have hno := no_other_at l₁ l₂ t t.columnId t.order (hle1 t.order) rfl rfl
  have hround : ∀ (l : Store), (∀ x ∈ l, x ∈ l₁ ∨ x ∈ l₂) →
      (l.map (moveAcrossSpec t.columnId cb t.order b)).map
        (moveAcrossSpec cb t.columnId b t.order) = l := by
    intro l hl
    rw [List.map_map]
    refine (List.map_congr_left ?_).trans (List.map_id' l)
    intro x hx
    exact moveAcross_round t.columnId cb t.order b hcb x
      (fun hcA => hno x (hl x hx) hcA)
  rw [hround l₁ (fun x hx => Or.inl hx), hround l₂ (fun x hx => Or.inr hx)]

/-- Witness for C6: a task moved from todo to in-progress and back lands the
whole store where it started. -/
theorem C6_move_round_trip_witness :
    ∃ s₁, moveTaskToColumn
        [⟨1, "Task AAAAA", "", .todo, 1⟩, ⟨2, "Task BBBBB", "", .todo, 2⟩,
          ⟨3, "Task CCCCC", "", .inProgress, 1⟩] 2 .inProgress 1 = .ok s₁ ∧
      moveTaskToColumn s₁ 2 .todo 2 =
        .ok [⟨1, "Task AAAAA", "", .todo, 1⟩, ⟨2, "Task BBBBB", "", .todo, 2⟩,
          ⟨3, "Task CCCCC", "", .inProgress, 1⟩] := by
  have h := C6_move_round_trip [⟨1, "Task AAAAA", "", .todo, 1⟩]
    [⟨3, "Task CCCCC", "", .inProgress, 1⟩] ⟨2, "Task BBBBB", "", .todo, 2⟩
    .inProgress 1 (by decide) (by decide) (by decide)
  exact h

/-- C1: starting from a state in which no two tasks of any column share an
order value, any sequence of sequentially executed engine operations — creates
with or without an explicit order, deletes, single moves and bulk reorders,
with arbitrary arguments — preserves per-column order uniqueness.  Inserts
append above the column maximum or into a hole the exact-hit shift has opened;
deletes and moves recompact and reopen slots pairwise; a bulk `updateOne`
whose target order is already held by another task of the column is rejected
by the unique `(columnId, order)` index (E11000) before it can commit a
duplicate, aborting the batch with the earlier writes (each individually
duplicate-free) in place. -/
theorem C1_uniqueness_preserved (ops : List Op) (s : Store)
    (huniq : ∀ c, uniqueOrders s c) :
    ∀ c, uniqueOrders (execOps s ops) c := by
  induction ops generalizing s with
  | nil => exact huniq
  | cons op ops ih =>
    have h1 : ∀ c o, countOrd s c o ≤ 1 := fun c => (uniqueOrders_iff_count s c).mp (huniq c)
    have hstep : ∀ c o, countOrd (applyOp s op) c o ≤ 1 := by
      cases op with
      | insert newId ti de c ord => exact uniq_insertTask s newId ti de c ord h1
      | delete tid =>
        cases hd : deleteTask s tid with
        | error e =>
          have heq : applyOp s (Op.delete tid) = s := by
            show (match deleteTask s tid with
              | .ok s' => s'
              | .error _ => s) = s
            rw [hd]
          rw [heq]
          exact h1
        | ok s2 =>
          have heq : applyOp s (Op.delete tid) = s2 := by
            show (match deleteTask s tid with
              | .ok s' => s'
              | .error _ => s) = s2
            rw [hd]
          rw [heq]
          exact uniq_deleteTask s tid s2 hd h1
      | move tid nc no =>
        cases hmv : moveTaskToColumn s tid nc no with
        | error e =>
          have heq : applyOp s (Op.move tid nc no) = s := by
            show (match moveTaskToColumn s tid nc no with
              | .ok s' => s'
              | .error _ => s) = s
            rw [hmv]
          rw [heq]
          exact h1
        | ok s2 =>
          have heq : applyOp s (Op.move tid nc no) = s2 := by
            show (match moveTaskToColumn s tid nc no with
              | .ok s' => s'
              | .error _ => s) = s2
            rw [hmv]
          rw [heq]
          exact uniq_moveTask s tid nc no s2 hmv h1
      | bulk c us => exact uniq_reorderTasks s c us h1
      | nextOrder c => exact h1
    exact ih (applyOp s op) (fun c => (uniqueOrders_iff_count _ c).mpr (hstep c))

/-- Witness for C1: a concrete run with an insert, a cross-column move, a
delete, a bulk reorder whose second entry is rejected by the unique index, and
a next-order read. -/
theorem C1_uniqueness_preserved_witness :
    uniqueOrders (execOps
      [⟨1, "Task one..", "", .todo, 1⟩, ⟨2, "Task two..", "", .todo, 2⟩]
      [Op.insert 3 "Task three" "" .todo (some 1), Op.move 2 .inProgress 1,
        Op.delete 1, Op.bulk .todo [(3, 2), (3, 1)], Op.nextOrder .completed]) .todo ∧
    uniqueOrders (execOps
      [⟨1, "Task one..", "", .todo, 1⟩, ⟨2, "Task two..", "", .todo, 2⟩]
      [Op.insert 3 "Task three" "" .todo (some 1), Op.move 2 .inProgress 1,
        Op.delete 1, Op.bulk .todo [(3, 2), (3, 1)], Op.nextOrder .completed]) .inProgress ∧
    uniqueOrders (execOps
      [⟨1, "Task one..", "", .todo, 1⟩, ⟨2, "Task two..", "", .todo, 2⟩]
      [Op.insert 3 "Task three" "" .todo (some 1), Op.move 2 .inProgress 1,
        Op.delete 1, Op.bulk .todo [(3, 2), (3, 1)], Op.nextOrder .completed]) .completed := by
  have h := C1_uniqueness_preserved
    [Op.insert 3 "Task three" "" .todo (some 1), Op.move 2 .inProgress 1,
      Op.delete 1, Op.bulk .todo [(3, 2), (3, 1)], Op.nextOrder .completed]
    [⟨1, "Task one..", "", .todo, 1⟩, ⟨2, "Task two..", "", .todo, 2⟩]
    (by decide)
  exact ⟨h .todo, h .inProgress, h .completed⟩

end KanBan
